import Mathlib

/-
Verification development for the `mpitree` decision-tree estimator
(`mpitree/tree/_node.py` and `mpitree/tree/decision_tree.py`).

The Python code is shallowly embedded: numpy object arrays become lists of
`Val` cells (a feature matrix is a list of rows), fallible Python code
(raising `KeyError`, `TypeError`, `AssertionError`, ...) becomes `Except PyErr`,
and the recursive tree builder takes an explicit fuel argument (returning an
`outOfFuel` error when exhausted) so that recursion is structural.
`statistics.mode`, `np.unique`, `np.argmin` / `np.argmax` tie-breaking, and the
insertion-ordered `dict` of children are embedded with their exact CPython /
numpy semantics (first-encountered mode, sorted unique values, first minimal /
maximal index, association list).  Shannon entropy uses `Real.logb 2`, the
idealisation of the floating-point `np.log2`.
-/

namespace Mpitree

/-- A cell of the (object-dtype) feature matrix or target vector: either a
numeric value (Python int / float, idealised as `ℚ`) or a categorical
string. -/
inductive Val where
  | num (q : ℚ)
  | str (s : String)
deriving DecidableEq, Repr

/-- Whether a cell holds a numeric value. -/
def Val.isNum : Val → Bool
  | .num _ => true
  | .str _ => false

/-- Lexicographic (code-point) strict order on character lists — exactly
Python's string `<`. -/
def charListLt : List Char → List Char → Bool
  | [], [] => false
  | [], _ :: _ => true
  | _ :: _, [] => false
  | a :: as, b :: bs =>
      if a.val < b.val then true
      else if b.val < a.val then false
      else charListLt as bs

/-- Python's string `<`: lexicographic by code point. -/
def pyStrLt (a b : String) : Bool := charListLt a.data b.data

/-- Python's string `<=` (the complement of the reversed strict order). -/
def pyStrLe (a b : String) : Bool := !charListLt b.data a.data

/-- Python `a < b` on cells.  Comparing a number with a string raises
`TypeError` in Python 3, hence the `Option`: `none` models the raised error. -/
def pyLt? : Val → Val → Option Bool
  | .num a, .num b => some (decide (a < b))
  | .str a, .str b => some (pyStrLt a b)
  | _, _ => none

/-- Python `a <= b` on cells (`TypeError` on mixed types, as `pyLt?`). -/
def pyLe? : Val → Val → Option Bool
  | .num a, .num b => some (decide (a ≤ b))
  | .str a, .str b => some (pyStrLe a b)
  | _, _ => none

/-- Total order on cells used to embed the sorting done by `np.unique`.
All columns and targets the program sorts are type-homogeneous, so the
cross-type case (numbers before strings) is never exercised. -/
def valLe : Val → Val → Bool
  | .num a, .num b => decide (a ≤ b)
  | .str a, .str b => pyStrLe a b
  | .num _, .str _ => true
  | .str _, .num _ => false

/-- Insert into a `valLe`-sorted list, keeping it sorted. -/
def insertVal (a : Val) : List Val → List Val
  | [] => [a]
  | b :: bs => if valLe a b then a :: b :: bs else b :: insertVal a bs

/-- Insertion sort by `valLe`. -/
def sortVals : List Val → List Val
  | [] => []
  | a :: as => insertVal a (sortVals as)

/-- First-occurrence deduplication (keeps the first copy of each value, in
encounter order) — the key order of a CPython `dict` / `Counter`. -/
def dedupFirst : List Val → List Val
  | [] => []
  | a :: as => a :: (dedupFirst as).filter (fun b => b ≠ a)

/-- `np.unique`: the distinct values, sorted. -/
def uniqueSorted (l : List Val) : List Val := sortVals (dedupFirst l)

/-- `statistics.mode`: the most common value; on ties the first encountered
(CPython ≥ 3.8 returns `Counter(data).most_common(1)[0][0]`, and
`most_common`'s sort is stable over insertion order).  `none` models the
`StatisticsError` raised on empty data. -/
def pyMode? (l : List Val) : Option Val :=
  (dedupFirst l).foldl
    (fun acc v =>
      match acc with
      | none => some v
      | some b => if l.count v > l.count b then some v else acc)
    none

/-- Keep the entries of `l` whose mask bit is `true` (`arr[mask]`). -/
def maskSelect {α : Type} (l : List α) (mask : List Bool) : List α :=
  ((l.zip mask).filter (fun p => p.2)).map (fun p => p.1)

/-- Keep the entries of `l` whose mask bit is `false` (`arr[~mask]`). -/
def maskReject {α : Type} (l : List α) (mask : List Bool) : List α :=
  ((l.zip mask).filter (fun p => !p.2)).map (fun p => p.1)

/-- Modelled from the spec: `np.split_mask` (defined in the repository's
`_util.py`, which is not under `src/`) partitions an array by a boolean mask
into the selected and the complementary part, in that order; the spec
describes its use as partitioning into `{x < threshold}` / `{x >= threshold}`. -/
def splitMask {α : Type} (l : List α) (mask : List Bool) : List (List α) :=
  [maskSelect l mask, maskReject l mask]

/-- Modelled from the spec: `np.proba` (defined in the repository's
`_util.py`, which is not under `src/`): "`proba` is computed as class counts
/ total count", i.e. the empirical distribution over the observed distinct
values in `np.unique` order; "probability-zero classes are excluded from the
entropy sum by construction (only observed classes contribute terms)". -/
def proba (x : List Val) : List ℚ :=
  (uniqueSorted x).map (fun v => (x.count v : ℚ) / (x.length : ℚ))

/-- Modelled from the spec: `is_numeric_dtype` (imported from the repository's
`_util.py`, which is not under `src/`): feature columns are "typed
homogeneously per-column as either numeric or categorical (detected per
column, not declared)". -/
def isNumericDtype (col : List Val) : Bool := col.all Val.isNum

/-- `self._entropy(x)`: Shannon entropy in bits,
`-np.sum(proba * np.log2(proba))`. -/
noncomputable def entropy (x : List Val) : ℝ :=
  -(((proba x).map (fun p : ℚ => (p : ℝ) * Real.logb 2 (p : ℝ))).sum)

/-- Errors a run of the embedded Python code can raise.  `outOfFuel` is the
embedding's own marker for exhausted recursion fuel (the Python recursion has
no such bound). -/
inductive PyErr where
  | keyError (k : Val)
  | typeError
  | valueError
  | indexError
  | assertionError
  | statisticsError
  | attributeError
  | notImplementedError
  | outOfFuel
deriving DecidableEq, Repr

/-- The values a `KeyError` carries (its `args`): exactly the missing key.
Used to state what a lookup error does and does not name. -/
def errArgs : PyErr → List Val
  | .keyError k => [k]
  | _ => []

/-- `DecisionNode` from `_node.py`.  `parent` is the node's snapshot of its
parent (the builder constructs nodes with `deepcopy`, so the Python parent
back-reference is a value copy — exactly Lean's value semantics).  `children`
is the insertion-ordered `dict` as an association list. -/
inductive DNode where
  | mk
      (feature : Val)
      (threshold : Option Val)
      (branch : Option Val)
      (depth : ℕ)
      (parent : Option DNode)
      (children : List (Val × DNode))
      (target : List Val)
      (value : List ℕ)
      (nSamples : ℕ)
      (classes : List Val)
deriving Repr

def DNode.feature : DNode → Val
  | .mk f _ _ _ _ _ _ _ _ _ => f

def DNode.threshold : DNode → Option Val
  | .mk _ t _ _ _ _ _ _ _ _ => t

def DNode.branch : DNode → Option Val
  | .mk _ _ b _ _ _ _ _ _ _ => b

def DNode.depth : DNode → ℕ
  | .mk _ _ _ d _ _ _ _ _ _ => d

def DNode.parent : DNode → Option DNode
  | .mk _ _ _ _ p _ _ _ _ _ => p

def DNode.children : DNode → List (Val × DNode)
  | .mk _ _ _ _ _ cs _ _ _ _ => cs

def DNode.target : DNode → List Val
  | .mk _ _ _ _ _ _ tg _ _ _ => tg

def DNode.value : DNode → List ℕ
  | .mk _ _ _ _ _ _ _ v _ _ => v

def DNode.nSamples : DNode → ℕ
  | .mk _ _ _ _ _ _ _ _ n _ => n

def DNode.classes : DNode → List Val
  | .mk _ _ _ _ _ _ _ _ _ cl => cl

/-- `value` as computed in `DecisionNode.__post_init__`: the per-class counts
of the target slice, aligned to the global class list
(`[n_class_dist.get(k, 0) for k in self.classes]`). -/
def valueOf (classes target : List Val) : List ℕ :=
  classes.map (fun c => target.count c)

/-- The depth `__post_init__` assigns: the dataclass default `0`, overwritten
with `parent.depth + 1` when a parent is present. -/
def pdepth : Option DNode → ℕ
  | none => 0
  | some p => p.depth + 1

/-- Constructing a `DecisionNode` as the tree builder's `make_node` does
(`feature`, `branch`, `parent`, `target`, `classes` passed; `threshold` left
`None`, `children` empty; `value`, `n_samples`, `depth` computed by
`__post_init__`; the whole node deep-copied, which value semantics gives us
for free). -/
def mkDecisionNode (feature : Val) (parent : Option DNode) (branch : Option Val)
    (target : List Val) (classes : List Val) : DNode :=
  .mk feature none branch (pdepth parent) parent [] target
    (valueOf classes target) target.length classes

/-- `split_node.threshold = ...`: the post-construction threshold
assignment. -/
def setThreshold (nd : DNode) (t : Option Val) : DNode :=
  match nd with
  | .mk f _ b d p cs tg v n cl => .mk f t b d p cs tg v n cl

/-- `split_node.children[branch] = subtree` (fresh key: the builder attaches
each branch label exactly once). -/
def attachChild (nd : DNode) (br : Val) (child : DNode) : DNode :=
  match nd with
  | .mk f t b d p cs tg v n cl => .mk f t b d p (cs ++ [(br, child)]) tg v n cl

/-- `DecisionNode.is_leaf`: no children. -/
def DNode.isLeaf (nd : DNode) : Bool := nd.children.isEmpty

/-- Dictionary lookup in the children mapping. -/
def lookupChild (cs : List (Val × DNode)) (k : Val) : Option DNode :=
  match cs with
  | [] => none
  | (k0, c) :: rest => if k0 = k then some c else lookupChild rest k

/-- `DecisionNode.__getitem__(other)`: for a numerical node the branch label
is `("True", "False")[other <= self.threshold]` — note that Python indexes
the tuple with the boolean, so a true comparison selects index 1, the string
`"False"`; for a categorical node the label is `other` itself.  A missing key
raises `KeyError(label)`; a number/string comparison raises `TypeError`. -/
def getItem (nd : DNode) (other : Val) : Except PyErr DNode :=
  match nd.threshold with
  | some t =>
      match pyLe? other t with
      | none => .error .typeError
      | some b =>
          let branch := if b then Val.str "False" else Val.str "True"
          match lookupChild nd.children branch with
          | some c => .ok c
          | none => .error (.keyError branch)
  | none =>
      match lookupChild nd.children other with
      | some c => .ok c
      | none => .error (.keyError other)

/-! ### Feature matrices -/

/-- A feature matrix: a list of rows of cells (numpy 2-D object array). -/
abbrev Mat := List (List Val)

/-- `X.shape[1]` of a (rectangular) matrix. -/
def ncols : Mat → ℕ
  | [] => 0
  | r :: _ => r.length

/-- The column `X[:, i]`. -/
def colView (X : Mat) (i : ℕ) : List Val :=
  X.map (fun r => r.getD i (Val.str ""))

/-- `np.delete(X, i, axis=1)`: drop column `i` from every row. -/
def deleteCol (X : Mat) (i : ℕ) : Mat :=
  X.map (fun r => r.eraseIdx i)

/-- `X.size`: the total element count. -/
def sizeMat (X : Mat) : ℕ := (X.map List.length).sum

/-- `np.all(X == X[0])`: every row equals the first one. -/
def allRowsEq : Mat → Bool
  | [] => true
  | r :: rs => rs.all (fun r2 => r2 = r)

/-- Elementwise `X[:, i] < t` as an error-propagating mask
(`TypeError` on a number/string comparison, as numpy's object dtype would
raise). -/
def buildMask (col : List Val) (t : Val) : Except PyErr (List Bool) :=
  match col with
  | [] => .ok []
  | v :: vs =>
      match pyLt? v t with
      | none => .error .typeError
      | some b =>
          match buildMask vs t with
          | .error e => .error e
          | .ok bs => .ok (b :: bs)

/-- Error-propagating map over a list (a Python list comprehension whose body
may raise). -/
def mapMExcept {α β : Type} (f : α → Except PyErr β) : List α → Except PyErr (List β)
  | [] => .ok []
  | a :: as =>
      match f a with
      | .error e => .error e
      | .ok b =>
          match mapMExcept f as with
          | .error e => .error e
          | .ok bs => .ok (b :: bs)

/-! ### Splitter -/

/-- `np.argmin`: index of the first minimal entry (`0` on the empty list,
which the code never hits). -/
noncomputable def argminIdx (l : List ℝ) : ℕ :=
  match l with
  | [] => 0
  | h :: t =>
      (t.foldl
        (fun acc x =>
          if x < acc.1 then (x, acc.2.2, acc.2.2 + 1) else (acc.1, acc.2.1, acc.2.2 + 1))
        (h, 0, 1)).2.1

/-- `np.argmax`: index of the first maximal entry. -/
noncomputable def argmaxIdx (l : List ℝ) : ℕ :=
  match l with
  | [] => 0
  | h :: t =>
      (t.foldl
        (fun acc x =>
          if x > acc.1 then (x, acc.2.2, acc.2.2 + 1) else (acc.1, acc.2.1, acc.2.2 + 1))
        (h, 0, 1)).2.1

/-- Python `min` over a nonempty list of floats (`0` on the empty list, which
the code never hits). -/
noncomputable def minListR : List ℝ → ℝ
  | [] => 0
  | h :: t => t.foldl min h

/-- `np.dot` of two real vectors. -/
def dotR (a b : List ℝ) : ℝ := ((a.zip b).map (fun p => p.1 * p.2)).sum

/-- `np.dot` of a rational weight vector with a real impurity vector. -/
def dotQR (a : List ℚ) (b : List ℝ) : ℝ := ((a.zip b).map (fun p => (p.1 : ℝ) * p.2)).sum

/-- `y[X[:, i] == level]` used for categorical information gain. -/
def selectWhereEq (y col : List Val) (level : Val) : List Val :=
  maskSelect y (col.map (fun v => decide (v = level)))

/-- The `cost(x)` closure of `_compute_optimal_threshold`, applied to one row
of `X` (via `np.apply_along_axis(cost, axis=1, arr=X)`).  Note the source
takes the candidate threshold from `x[-1]`, the row's LAST entry, not from
the `feature_idx` column. -/
noncomputable def costFn (X : Mat) (y : List Val) (featureIdx : ℕ) (row : List Val) :
    Except PyErr ℝ :=
  match row.getLast? with
  | none => .error .indexError
  | some threshold =>
      match buildMask (colView X featureIdx) threshold with
      | .error e => .error e
      | .ok mask =>
          let levels := splitMask X mask
          let weights : List ℝ := levels.map (fun lvl => (lvl.length : ℝ) / (X.length : ℝ))
          let impurity : List ℝ := [entropy (maskSelect y mask), entropy (maskReject y mask)]
          .ok (dotR weights impurity)

/-- `DecisionTreeClassifier._compute_optimal_threshold`: evaluate `cost` on
every row, take `np.argmin`, read the chosen threshold from `X[idx, -1]`
(again the last column), and return
`(entropy(y) - min(costs), t_hat)`. -/
noncomputable def computeOptimalThreshold (X : Mat) (y : List Val) (featureIdx : ℕ) :
    Except PyErr (ℝ × Val) :=
  match mapMExcept (costFn X y featureIdx) X with
  | .error e => .error e
  | .ok costs =>
      let idx := argminIdx costs
      let tHat := (X.getD idx []).getLastD (Val.str "")
      let minCost := minListR costs
      .ok (entropy y - minCost, tHat)

/-- `DecisionTreeClassifier._compute_information_gain` (the `DEBUG = 0`
path).  For a numeric column the gain and the computed threshold (which the
source stores in `self.n_thresholds_[feature_idx]`) are returned; for a
categorical column the gain is
`entropy(y) - np.dot(np.proba(col), [entropy(y[col == lvl]) for lvl in np.unique(col)])`. -/
noncomputable def computeInformationGain (X : Mat) (y : List Val) (featureIdx : ℕ) :
    Except PyErr (ℝ × Option Val) :=
  if isNumericDtype (colView X featureIdx) then
    match computeOptimalThreshold X y featureIdx with
    | .error e => .error e
    | .ok (g, t) => .ok (g, some t)
  else
    let col := colView X featureIdx
    let weight := proba col
    let impurity := (uniqueSorted col).map (fun lvl => entropy (selectWhereEq y col lvl))
    .ok (entropy y - dotQR weight impurity, none)

/-! ### Partitioning -/

/-- Result of `DecisionTreeClassifier._partition_data`: a numerical split
returns the zip of both mask sides with `("True", "False")`; a categorical
split returns a single `(np.delete(X[mask], i, axis=1), y[mask], level)`
triple. -/
inductive PartResult where
  | numericParts (parts : List (Mat × List Val × Val))
  | catPart (part : Mat × List Val × Val)

/-- `DecisionTreeClassifier._partition_data`.  For a node with a threshold:
mask by strict `<`, `assert` that both sides of `X` and of `y` are nonempty
(`AssertionError` otherwise), and return both sides labelled
`"True"` / `"False"`.  Otherwise: select the rows equal to `level` and drop
the feature's column. -/
def partitionData (X : Mat) (y : List Val) (featureIdx : ℕ) (level : Val)
    (splitNode : DNode) : Except PyErr PartResult :=
  match splitNode.threshold with
  | some t =>
      match buildMask (colView X featureIdx) t with
      | .error e => .error e
      | .ok mask =>
          if (splitMask X mask).all (fun m => sizeMat m ≠ 0) then
            if (splitMask y mask).all (fun m => m.length ≠ 0) then
              .ok (.numericParts
                [(maskSelect X mask, maskSelect y mask, Val.str "True"),
                 (maskReject X mask, maskReject y mask, Val.str "False")])
            else .error .assertionError
          else .error .assertionError
  | none =>
      let mask := (colView X featureIdx).map (fun v => decide (v = level))
      .ok (.catPart (deleteCol (maskSelect X mask) featureIdx, maskSelect y mask, level))

/-! ### Tree builder -/

/-- Estimator hyperparameters: `max_depth` (`None` = unbounded) and
`min_samples_split`. -/
structure TreeConfig where
  maxDepth : Option ℕ
  minSamplesSplit : ℕ
deriving Repr, DecidableEq

/-- State fixed by `fit` before induction: `feature_names_`, `classes_`
(`np.unique(y)`), and `unique_levels_` (per ORIGINAL column index: the pair
`("True", "False")` for numeric columns, else the sorted unique levels). -/
structure FitState where
  featureNames : List Val
  classes : List Val
  uniqueLevels : List (List Val)
deriving Repr, DecidableEq

/-- The `for X, y, branch in n_subtrees` loop of `_tree_builder`: recurse into
each sub-partition with the current split node as parent (so each child's
parent snapshot carries the previously attached siblings) and attach the
returned subtree under its branch label. -/
def buildChildrenLoop
    (rec : Mat → List Val → List ℕ → Option DNode → Option Val → ℕ → Except PyErr DNode)
    (featureIndices : List ℕ) (depth : ℕ) :
    List (Mat × List Val × Val) → DNode → Except PyErr DNode
  | [], nd => .ok nd
  | (Xc, yc, br) :: rest, nd =>
      match rec Xc yc featureIndices (some nd) (some br) (depth + 1) with
      | .error e => .error e
      | .ok child => buildChildrenLoop rec featureIndices depth rest (attachChild nd br child)

/-- `DecisionTreeClassifier._tree_builder`, with explicit recursion fuel.
Stopping rules in source order: single target class; `X.size == 0` (falling
back to `mode(parent.target)`, an `AttributeError` if there is no parent);
all rows identical; `max_depth == depth`; `min_samples_split > len(X)`.
Otherwise: gains for every current column, `np.argmax`, the node is named by
`feature_names_[feature_indices[split_idx]]`, a numeric split stores the
threshold from `n_thresholds_[split_idx]`, and the partitions are taken per
level of `unique_levels_[split_idx]` — the source indexes `unique_levels_` by
the LOCAL column position, not the original index.  A categorical split
deletes the split position from `feature_indices` before recursing.
The source evaluates `is_numeric_dtype(X[:, split_feature_idx])` twice (once
to set the threshold, once to select the partition shape); the test is pure
and deterministic, so the embedding branches on it once, performing the same
partition calls with the same (threshold-carrying or not) node in each arm. -/
noncomputable def treeBuilder (cfg : TreeConfig) (st : FitState) :
    ℕ → Mat → List Val → List ℕ → Option DNode → Option Val → ℕ → Except PyErr DNode
  | 0, _, _, _, _, _, _ => .error .outOfFuel
  | fuel + 1, X, y, featureIndices, parent, branch, depth =>
      let mkLeaf : List Val → Except PyErr DNode := fun src =>
        match pyMode? src with
        | none => .error .statisticsError
        | some m => .ok (mkDecisionNode m parent branch y st.classes)
      if (uniqueSorted y).length = 1 then mkLeaf y
      else if sizeMat X = 0 then
        match parent with
        | none => .error .attributeError
        | some p => mkLeaf p.target
      else if allRowsEq X then mkLeaf y
      else if cfg.maxDepth = some depth then mkLeaf y
      else if cfg.minSamplesSplit > X.length then mkLeaf y
      else
        match mapMExcept (computeInformationGain X y) (List.range (ncols X)) with
        | .error e => .error e
        | .ok gainsThresholds =>
            let splitIdx := argmaxIdx (gainsThresholds.map Prod.fst)
            match featureIndices.get? splitIdx with
            | none => .error .indexError
            | some normIdx =>
                match st.featureNames.get? normIdx with
                | none => .error .indexError
                | some splitFeature =>
                    match st.uniqueLevels.get? splitIdx with
                    | none => .error (.keyError (Val.num splitIdx))
                    | some levels =>
                        if isNumericDtype (colView X splitIdx) then
                          let node1 := setThreshold
                            (mkDecisionNode splitFeature parent branch y st.classes)
                            ((gainsThresholds.getD splitIdx (0, none)).2)
                          match mapMExcept
                              (fun lvl => partitionData X y splitIdx lvl node1)
                              levels with
                          | .error e => .error e
                          | .ok partResults =>
                              match partResults.head? with
                              | some (.numericParts subs) =>
                                  buildChildrenLoop (treeBuilder cfg st fuel)
                                    featureIndices depth subs node1
                              | some (.catPart _) => .error .typeError
                              | none => .error .indexError
                        else
                          let node0 :=
                            mkDecisionNode splitFeature parent branch y st.classes
                          match mapMExcept
                              (fun lvl => partitionData X y splitIdx lvl node0)
                              levels with
                          | .error e => .error e
                          | .ok partResults =>
                              buildChildrenLoop (treeBuilder cfg st fuel)
                                (featureIndices.eraseIdx splitIdx) depth
                                (partResults.filterMap
                                  (fun r =>
                                    match r with
                                    | .catPart p => some p
                                    | .numericParts _ => none))
                                node0

/-- A fitted classifier: the fit-time state and the built tree. -/
structure FittedClassifier where
  state : FitState
  tree : DNode

/-- `DecisionTreeClassifier.fit`: derive positional `feature_<i>` names,
validate `(X, y)` (matching and nonzero sample count, at least one feature,
rectangular rows — `check_X_y`), fix `classes_ = np.unique(y)` and the global
`unique_levels_`, and build the tree from the root call
`_tree_builder(X, y)` (identity `feature_indices`, no parent, no branch,
depth 0). -/
noncomputable def fitClassifier (cfg : TreeConfig) (fuel : ℕ) (X : Mat) (y : List Val) :
    Except PyErr FittedClassifier :=
  if X.length = y.length ∧ X ≠ [] ∧ ncols X ≠ 0 ∧ X.all (fun r => r.length = ncols X) then
    let featureNames := (List.range (ncols X)).map
      (fun i => Val.str ("feature_" ++ toString i))
    let classes := uniqueSorted y
    let uniqueLevels := (List.range (ncols X)).map
      (fun i =>
        if isNumericDtype (colView X i) then [Val.str "True", Val.str "False"]
        else uniqueSorted (colView X i))
    let st : FitState := ⟨featureNames, classes, uniqueLevels⟩
    match treeBuilder cfg st fuel X y (List.range (ncols X)) none none 0 with
    | .error e => .error e
    | .ok t => .ok ⟨st, t⟩
  else .error .valueError

/-! ### Inference -/

/-- `tree_walk` from `BaseDecisionTree._decision_paths`: from the root,
resolve the node's feature name to a column index
(`feature_names_.index(...)`, `ValueError` if absent), read the query value
at that index, and follow `__getitem__` until a leaf. -/
def treeWalk (st : FitState) : ℕ → List Val → DNode → Except PyErr DNode
  | 0, _, _ => .error .outOfFuel
  | fuel + 1, x, nd =>
      if nd.isLeaf then .ok nd
      else
        match st.featureNames.findIdx? (fun v => decide (v = nd.feature)) with
        | none => .error .valueError
        | some featureIdx =>
            match x.get? featureIdx with
            | none => .error .indexError
            | some queryLevel =>
                match getItem nd queryLevel with
                | .error e => .error e
                | .ok child => treeWalk st fuel x child

/-- `predict` on a single row: the routed leaf's `feature` value. -/
def predictRow (st : FitState) (fuel : ℕ) (x : List Val) (t : DNode) : Except PyErr Val :=
  match treeWalk st fuel x t with
  | .error e => .error e
  | .ok leaf => .ok leaf.feature

/-- `compute_class_proba` from `predict_proba`: `value / n_samples`, except a
zero-sample leaf substitutes `parent.value / parent.n_samples`
(`AttributeError` if such a leaf had no parent). -/
def computeClassProba (nd : DNode) : Except PyErr (List ℚ) :=
  if nd.nSamples = 0 then
    match nd.parent with
    | none => .error .attributeError
    | some p => .ok (p.value.map (fun c : ℕ => (c : ℚ) / (p.nSamples : ℚ)))
  else .ok (nd.value.map (fun c : ℕ => (c : ℚ) / (nd.nSamples : ℚ)))

/-- `predict_proba` on a single row. -/
def predictProbaRow (st : FitState) (fuel : ℕ) (x : List Val) (t : DNode) :
    Except PyErr (List ℚ) :=
  match treeWalk st fuel x t with
  | .error e => .error e
  | .ok leaf => computeClassProba leaf

/-! ### Regressor and parallel classifier -/

/-- A `DecisionTreeRegressor` after `fit`: no tree is ever attached
(`tree?` stays `none`). -/
structure FittedRegressor where
  tree? : Option DNode

/-- `DecisionTreeRegressor.fit`: `check_X_y(X, y, y_numeric=True)` and then
`return self` — valid input is validated and the estimator returned
unchanged; no tree is built and nothing is raised.  `check_X_y`'s default
`dtype="numeric"` coerces `X` to floats, so a matrix holding categorical
strings raises `ValueError`: every cell of `X`, and (via `y_numeric=True`)
every entry of `y`, must be numeric. -/
def fitRegressor (X : Mat) (y : List Val) : Except PyErr FittedRegressor :=
  if X.length = y.length ∧ X ≠ [] ∧ ncols X ≠ 0 ∧
      X.all (fun r => r.length = ncols X) ∧ X.all (fun r => r.all Val.isNum) ∧
      y.all Val.isNum then
    .ok ⟨none⟩
  else .error .valueError

/-- `DecisionTreeRegressor._tree_builder`: `raise NotImplementedError`. -/
def regTreeBuilder (_X : Mat) (_y : List Val) (_parent : Option DNode)
    (_branch : Option Val) (_depth : ℕ) : Except PyErr DNode :=
  .error .notImplementedError

/-- `class ParallelDecisionTreeClassifier(DecisionTreeClassifier): pass` —
the "parallel" estimator inherits everything, so its `fit` is literally the
serial classifier's `fit`. -/
noncomputable def parallelFitClassifier :
    TreeConfig → ℕ → Mat → List Val → Except PyErr FittedClassifier :=
  fitClassifier

/-! ### Depth-first enumeration (`BaseDecisionTree.__iter__`) -/

mutual

/-- Size of a node counting itself and its (owned) children, ignoring the
(non-owning) parent snapshot. -/
def sizeD : DNode → ℕ
  | .mk _ _ _ _ _ cs _ _ _ _ => 1 + sizeCs cs

/-- Total size of a children list. -/
def sizeCs : List (Val × DNode) → ℕ
  | [] => 0
  | (_, c) :: rest => sizeD c + sizeCs rest

end

/-- The sort key of `__iter__`: `lambda n: not n.is_leaf`, with Python's
`False < True` read as `0 < 1`. -/
def keyNotLeaf (nd : DNode) : ℕ := if nd.isLeaf then 0 else 1

/-- Stable insertion (a new element goes after every element whose key is
less than or equal to its own). -/
def insertStableByKey {α : Type} (key : α → ℕ) (a : α) : List α → List α
  | [] => [a]
  | b :: bs => if key b ≤ key a then b :: insertStableByKey key a bs else a :: b :: bs

/-- Python's `sorted(l, key=key)`: a stable ascending sort.  Any stable sort
computes the same list, so a stable insertion sort is an exact embedding. -/
def pySortedByKey {α : Type} (key : α → ℕ) (l : List α) : List α :=
  l.foldl (fun acc a => insertStableByKey key a acc) []

lemma sizeCs_eq_sum (cs : List (Val × DNode)) :
    sizeCs cs = ((cs.map Prod.snd).map sizeD).sum := by
  induction cs with
  | nil => simp [sizeCs]
  | cons c rest ih =>
      obtain ⟨k, nd⟩ := c
      simp [sizeCs, ih]

lemma sum_map_insertStableByKey {α : Type} (key : α → ℕ) (g : α → ℕ) (a : α)
    (l : List α) :
    ((insertStableByKey key a l).map g).sum = g a + (l.map g).sum := by
  induction l with
  | nil => simp [insertStableByKey]
  | cons b bs ih =>
      by_cases h : key b ≤ key a
      · simp [insertStableByKey, h, ih]; ring
      · simp [insertStableByKey, h]

lemma sum_map_filter_partition {α : Type} (g : α → ℕ) (q : α → Bool) (l : List α) :
    ((l.filter q).map g).sum + ((l.filter (fun a => !q a)).map g).sum = (l.map g).sum := by
  induction l with
  | nil => simp
  | cons a as ih =>
      by_cases h : q a <;> simp [h] <;> omega

lemma sum_map_pySortedByKey {α : Type} (key : α → ℕ) (g : α → ℕ) (l : List α) :
    ((pySortedByKey key l).map g).sum = (l.map g).sum := by
  suffices h : ∀ acc : List α,
      ((l.foldl (fun acc a => insertStableByKey key a acc) acc).map g).sum =
        (l.map g).sum + (acc.map g).sum by
    simpa using h []
  induction l with
  | nil => intro acc; simp
  | cons a as ih =>
      intro acc
      simp only [List.foldl_cons, ih, List.map_cons, List.sum_cons,
        sum_map_insertStableByKey]
      ring

/-- `__iter__`: explicit-stack depth-first traversal.  The Lean list's head
is the top of the Python stack (which pops from the end), so Python's
`frontier.extend(children_sorted)` prepends `children_sorted.reverse`. -/
def dfsFrontier : List DNode → List DNode
  | [] => []
  | nd :: rest =>
      nd :: dfsFrontier
        ((pySortedByKey keyNotLeaf (nd.children.map Prod.snd)).reverse ++ rest)
termination_by stack => (stack.map sizeD).sum
decreasing_by
  simp only [List.map_append, List.sum_append, List.map_reverse, List.sum_reverse,
    sum_map_pySortedByKey, List.map_cons, List.sum_cons]
  have h : ((nd.children.map Prod.snd).map sizeD).sum < sizeD nd := by
    cases nd with
    | mk f t b d p cs tg v n cl =>
        simp only [DNode.children, sizeD, ← sizeCs_eq_sum]
        omega
  omega

/-- The enumeration exactly as the claim describes the push step: at each
popped node, push the leaf children first and the non-leaf children last
(preserving insertion order within each group), so non-leaf children are
popped first. -/
def dfsSpecFrontier : List DNode → List DNode
  | [] => []
  | nd :: rest =>
      let kids := nd.children.map Prod.snd
      nd :: dfsSpecFrontier
        (((kids.filter (fun c => c.isLeaf) ++ kids.filter (fun c => !c.isLeaf)).reverse
          ++ rest))
termination_by stack => (stack.map sizeD).sum
decreasing_by
  simp only [List.map_append, List.sum_append, List.map_reverse, List.sum_reverse,
    List.map_cons, List.sum_cons]
  have h : (((nd.children.map Prod.snd).filter (fun c => c.isLeaf)).map sizeD).sum +
      (((nd.children.map Prod.snd).filter (fun c => !c.isLeaf)).map sizeD).sum =
        ((nd.children.map Prod.snd).map sizeD).sum :=
    sum_map_filter_partition sizeD (fun c => c.isLeaf) (nd.children.map Prod.snd)
  have h2 : ((nd.children.map Prod.snd).map sizeD).sum < sizeD nd := by
    cases nd with
    | mk f t b d p cs tg v n cl =>
        simp only [DNode.children, sizeD, ← sizeCs_eq_sum]
        omega
  omega

/-- `__iter__` started the way the source starts it: `frontier = [self.tree_]`. -/
def treeIter (t : DNode) : List DNode := dfsFrontier [t]

/-- The claim's traversal, started from the root. -/
def specIter (t : DNode) : List DNode := dfsSpecFrontier [t]

lemma keyNotLeaf_le_one (nd : DNode) : keyNotLeaf nd ≤ 1 := by
  unfold keyNotLeaf
  by_cases h : nd.isLeaf <;> simp [h]

lemma insertStable_append_key_zero (x : DNode) (A B : List DNode)
    (hA : ∀ a ∈ A, keyNotLeaf a = 0) (hB : ∀ b ∈ B, keyNotLeaf b = 1)
    (hx : keyNotLeaf x = 0) :
    insertStableByKey keyNotLeaf x (A ++ B) = A ++ x :: B := by
  induction A with
  | nil =>
      cases B with
      | nil => simp [insertStableByKey]
      | cons b bs =>
          have hb := hB b (by simp)
          simp [insertStableByKey, hb, hx]
  | cons a as ih =>
      have ha := hA a (by simp)
      simp only [List.cons_append, insertStableByKey, ha, hx, Nat.le_refl, if_pos,
        List.cons.injEq, true_and]
      exact ih (fun a ha2 => hA a (by simp [ha2]))

lemma insertStable_append_key_one (x : DNode) (L : List DNode)
    (hx : keyNotLeaf x = 1) :
    insertStableByKey keyNotLeaf x L = L ++ [x] := by
  induction L with
  | nil => simp [insertStableByKey]
  | cons a as ih =>
      have ha := keyNotLeaf_le_one a
      simp only [insertStableByKey, hx, ha, if_pos, List.cons_append, List.cons.injEq,
        true_and]
      exact ih

lemma foldl_insertStable_partition (l : List DNode) :
    ∀ A B : List DNode, (∀ a ∈ A, keyNotLeaf a = 0) → (∀ b ∈ B, keyNotLeaf b = 1) →
    l.foldl (fun acc a => insertStableByKey keyNotLeaf a acc) (A ++ B) =
      (A ++ l.filter (fun c => c.isLeaf)) ++ (B ++ l.filter (fun c => !c.isLeaf)) := by
  induction l with
  | nil => intro A B hA hB; simp
  | cons x xs ih =>
      intro A B hA hB
      by_cases hx : x.isLeaf
      · have hx0 : keyNotLeaf x = 0 := by simp [keyNotLeaf, hx]
        have step : insertStableByKey keyNotLeaf x (A ++ B) = (A ++ [x]) ++ B := by
          rw [insertStable_append_key_zero x A B hA hB hx0]; simp
        rw [List.foldl_cons, step,
          ih (A ++ [x]) B
            (by intro a ha; rcases List.mem_append.mp ha with h1 | h1
                · exact hA a h1
                · simp at h1; subst h1; exact hx0)
            hB]
        simp [hx]
      · have hx1 : keyNotLeaf x = 1 := by simp [keyNotLeaf, hx]
        have step : insertStableByKey keyNotLeaf x (A ++ B) = A ++ (B ++ [x]) := by
          rw [insertStable_append_key_one x (A ++ B) hx1]; simp
        rw [List.foldl_cons, step,
          ih A (B ++ [x]) hA
            (by intro b hb; rcases List.mem_append.mp hb with h1 | h1
                · exact hB b h1
                · simp at h1; subst h1; exact hx1)]
        simp [hx]

/-- Python's stable `sorted` under the boolean key `not n.is_leaf` is exactly:
all leaf children in order, then all non-leaf children in order. -/
lemma pySortedByKey_keyNotLeaf (l : List DNode) :
    pySortedByKey keyNotLeaf l =
      l.filter (fun c => c.isLeaf) ++ l.filter (fun c => !c.isLeaf) := by
  have h := foldl_insertStable_partition l [] [] (by simp) (by simp)
  simpa [pySortedByKey] using h

lemma sizeD_pos (nd : DNode) : 1 ≤ sizeD nd := by
  cases nd with
  | mk f t b d p cs tg v n cl => simp [sizeD]

lemma dfsFrontier_eq_specFrontier_aux :
    ∀ n : ℕ, ∀ stack : List DNode, (stack.map sizeD).sum ≤ n →
      dfsFrontier stack = dfsSpecFrontier stack := by
  intro n
  induction n with
  | zero =>
      intro stack h
      cases stack with
      | nil =>
          unfold dfsFrontier dfsSpecFrontier
          rfl
      | cons nd rest =>
          exfalso
          have := sizeD_pos nd
          simp at h
          omega
  | succ n ih =>
      intro stack h
      cases stack with
      | nil =>
          unfold dfsFrontier dfsSpecFrontier
          rfl
      | cons nd rest =>
          unfold dfsFrontier dfsSpecFrontier
          simp only
          rw [pySortedByKey_keyNotLeaf]
          congr 1
          apply ih
          have hpart := sum_map_filter_partition sizeD (fun c => c.isLeaf)
            (nd.children.map Prod.snd)
          have hlt : ((nd.children.map Prod.snd).map sizeD).sum < sizeD nd := by
            cases nd with
            | mk f t b d p cs tg v nn cl =>
                simp only [DNode.children, sizeD, ← sizeCs_eq_sum]
                omega
          simp only [List.map_cons, List.sum_cons] at h
          simp only [List.map_append, List.sum_append, List.map_reverse,
            List.sum_reverse]
          omega

lemma dfsFrontier_eq_specFrontier (stack : List DNode) :
    dfsFrontier stack = dfsSpecFrontier stack :=
  dfsFrontier_eq_specFrontier_aux ((stack.map sizeD).sum) stack (le_refl _)

/-! ### Evaluation kit: entropy values and argmin / argmax on concrete data -/

lemma proba_nil : proba [] = [] := rfl

lemma entropy_nil : entropy [] = 0 := by
  simp [entropy, proba_nil]

lemma entropy_of_proba_singleton (x : List Val) (h : proba x = [1]) : entropy x = 0 := by
  simp [entropy, h]

lemma logb_two_half : Real.logb 2 ((1 : ℝ) / 2) = -1 := by
  rw [one_div, Real.logb_inv, Real.logb_self_eq_one (by norm_num)]

lemma entropy_of_proba_half (x : List Val) (h : proba x = [1 / 2, 1 / 2]) :
    entropy x = 1 := by
  rw [entropy, h]
  simp only [List.map_cons, List.map_nil, List.sum_cons, List.sum_nil]
  push_cast
  rw [logb_two_half]
  norm_num

lemma argminIdx_eq_zero (h : ℝ) (t : List ℝ) (hge : ∀ x ∈ t, ¬x < h) :
    argminIdx (h :: t) = 0 := by
  have H : ∀ t' : List ℝ, (∀ x ∈ t', ¬x < h) → ∀ i : ℕ,
      t'.foldl
        (fun acc x =>
          if x < acc.1 then (x, acc.2.2, acc.2.2 + 1) else (acc.1, acc.2.1, acc.2.2 + 1))
        (h, 0, i) = (h, 0, i + t'.length) := by
    intro t'
    induction t' with
    | nil => intro _ i; simp
    | cons a as ih =>
        intro ht i
        have ha := ht a (by simp)
        simp only [List.foldl_cons, if_neg ha]
        rw [ih (fun x hx => ht x (by simp [hx])) (i + 1)]
        simp
        omega
  simp only [argminIdx]
  rw [H t hge 1]

lemma argmaxIdx_eq_zero (h : ℝ) (t : List ℝ) (hle : ∀ x ∈ t, ¬x > h) :
    argmaxIdx (h :: t) = 0 := by
  have H : ∀ t' : List ℝ, (∀ x ∈ t', ¬x > h) → ∀ i : ℕ,
      t'.foldl
        (fun acc x =>
          if x > acc.1 then (x, acc.2.2, acc.2.2 + 1) else (acc.1, acc.2.1, acc.2.2 + 1))
        (h, 0, i) = (h, 0, i + t'.length) := by
    intro t'
    induction t' with
    | nil => intro _ i; simp
    | cons a as ih =>
        intro ht i
        have ha := ht a (by simp)
        simp only [List.foldl_cons, if_neg ha]
        rw [ih (fun x hx => ht x (by simp [hx])) (i + 1)]
        simp
        omega
  simp only [argmaxIdx]
  rw [H t hle 1]

lemma argmaxIdx_single (a : ℝ) : argmaxIdx [a] = 0 := by
  simp [argmaxIdx]

/-! ### Concrete fixtures -/

/-- A leaf attached under the branch label `"True"` of `c1Node`. -/
def c1LeafTrue : DNode :=
  DNode.mk (Val.str "yes") none (some (Val.str "True")) 1 none [] [] [] 0 []

/-- A leaf attached under the branch label `"False"` of `c1Node`. -/
def c1LeafFalse : DNode :=
  DNode.mk (Val.str "no") none (some (Val.str "False")) 1 none [] [] [] 0 []

/-- A numerical split node with threshold `5` and both branch children. -/
def c1Node : DNode :=
  DNode.mk (Val.str "feature_0") (some (Val.num 5)) none 0 none
    [(Val.str "True", c1LeafTrue), (Val.str "False", c1LeafFalse)] [] [] 0 []

/-- C1 (code evaluation): `DecisionNode.__getitem__` routes a query value
`v <= threshold` to the child under the branch label `"False"` (and `v >
threshold` to `"True"`), because `("True", "False")[v <= T]` indexes the
tuple with the boolean: `True` selects position 1, the string `"False"`.
This is the opposite of the claimed (and of `__str__`'s documented) routing. -/
theorem C1_getitem_routes_le_to_false_child :
    (getItem c1Node (Val.num 3)).map DNode.branch = .ok (some (Val.str "False")) ∧
    (getItem c1Node (Val.num 5)).map DNode.branch = .ok (some (Val.str "False")) ∧
    (getItem c1Node (Val.num 6)).map DNode.branch = .ok (some (Val.str "True")) := by
  refine ⟨?_, ?_, ?_⟩ <;> rfl

/-- C4 (counterexample): on perfectly valid training input the regressor's
`fit` returns the estimator without raising and without building any tree,
and the "parallel" classifier's `fit` silently trains a (serial) tree — here
a single root leaf labelled `"a"` — rather than failing immediately. -/
theorem C4_counterexample_no_failure :
    fitRegressor [[Val.num 1], [Val.num 2]] [Val.num 1, Val.num 2] =
      .ok ⟨none⟩ ∧
    (parallelFitClassifier ⟨none, 2⟩ 2 [[Val.num 1]] [Val.str "a"]).map
        (fun f => (f.tree.feature, f.tree.children.isEmpty)) =
      .ok (Val.str "a", true) := by
  constructor
  · rfl
  · rfl

/-- C4 (amended): on any valid input the regressor's `fit` validates and
returns the estimator unchanged — no tree is built and no error is raised,
the failure being deferred to the first not-fitted query; the regressor's
`_tree_builder` raises `NotImplementedError` whenever invoked; and the
parallel classifier's training path is literally the serial classifier's. -/
theorem C4_amended_stub_behaviour (X : Mat) (y : List Val)
    (h : X.length = y.length ∧ X ≠ [] ∧ ncols X ≠ 0 ∧
      X.all (fun r => r.length = ncols X) ∧ X.all (fun r => r.all Val.isNum) ∧
      y.all Val.isNum) :
    fitRegressor X y = .ok ⟨none⟩ ∧
    (∀ parent branch depth, regTreeBuilder X y parent branch depth =
      .error .notImplementedError) ∧
    parallelFitClassifier = fitClassifier := by
  refine ⟨?_, fun _ _ _ => rfl, rfl⟩
  simp [fitRegressor, h.1, h.2.1, h.2.2.1, h.2.2.2.1, h.2.2.2.2.1, h.2.2.2.2.2]

/-- Witness for `C4_amended_stub_behaviour` at a concrete valid input. -/
theorem C4_amended_stub_behaviour_witness :
    fitRegressor [[Val.num 1], [Val.num 2]] [Val.num 3, Val.num 4] = .ok ⟨none⟩ ∧
    (∀ parent branch depth,
      regTreeBuilder [[Val.num 1], [Val.num 2]] [Val.num 3, Val.num 4]
        parent branch depth = .error .notImplementedError) ∧
    parallelFitClassifier = fitClassifier :=
  C4_amended_stub_behaviour [[Val.num 1], [Val.num 2]] [Val.num 3, Val.num 4]
    (by
      refine ⟨by decide, by decide, by decide, by decide, by decide, by decide⟩)

/-- C5: a recursive induction call whose partition has no data
(`X.size == 0`, with the aligned empty target slice) and a parent returns —
without raising — a leaf (no children) labelled with the mode of the parent's
full target slice. -/
theorem C5_empty_partition_falls_back_to_parent_mode (cfg : TreeConfig)
    (st : FitState) (fuel : ℕ) (fi : List ℕ) (p : DNode) (branch : Option Val)
    (depth : ℕ) (m : Val) (hm : pyMode? p.target = some m) :
    treeBuilder cfg st (fuel + 1) [] [] fi (some p) branch depth =
      .ok (mkDecisionNode m (some p) branch [] st.classes) ∧
    (mkDecisionNode m (some p) branch [] st.classes).feature = m ∧
    (mkDecisionNode m (some p) branch [] st.classes).isLeaf = true := by
  refine ⟨?_, rfl, rfl⟩
  unfold treeBuilder
  simp [hm, uniqueSorted, dedupFirst, sortVals, sizeMat]

/-- A concrete parent node whose target slice is `["a", "b", "b", "a", "a"]`
(mode `"a"`). -/
def c5Parent : DNode :=
  mkDecisionNode (Val.str "feature_0") none none
    [Val.str "a", Val.str "b", Val.str "b", Val.str "a", Val.str "a"]
    [Val.str "a", Val.str "b"]

/-- Witness for `C5_empty_partition_falls_back_to_parent_mode` on a concrete
empty partition. -/
theorem C5_empty_partition_falls_back_to_parent_mode_witness :
    treeBuilder ⟨none, 2⟩ ⟨[], [Val.str "a", Val.str "b"], []⟩ 1 [] [] []
        (some c5Parent) (some (Val.str "x")) 1 =
      .ok (mkDecisionNode (Val.str "a") (some c5Parent) (some (Val.str "x")) []
        [Val.str "a", Val.str "b"]) ∧
    (mkDecisionNode (Val.str "a") (some c5Parent) (some (Val.str "x")) []
        [Val.str "a", Val.str "b"]).feature = Val.str "a" ∧
    (mkDecisionNode (Val.str "a") (some c5Parent) (some (Val.str "x")) []
        [Val.str "a", Val.str "b"]).isLeaf = true :=
  C5_empty_partition_falls_back_to_parent_mode ⟨none, 2⟩
    ⟨[], [Val.str "a", Val.str "b"], []⟩ 0 [] c5Parent (some (Val.str "x")) 1
    (Val.str "a") (by decide)

/-- C8: the enumeration order of `__iter__` — an explicit-stack DFS pushing
each popped node's children stably sorted by `not is_leaf` — is exactly the
claimed traversal that pushes all leaf children before all non-leaf children
(preserving insertion order within each group), so that internal siblings
are explored before leaf siblings. -/
theorem C8_iter_order_matches_spec (t : DNode) : treeIter t = specIter t := by
  unfold treeIter specIter
  exact dfsFrontier_eq_specFrontier [t]

/-! ### Structural lemmas about masks, sorting and counting -/

lemma maskSelect_nil {α : Type} (mask : List Bool) : maskSelect ([] : List α) mask = [] := by
  simp [maskSelect]

lemma maskSelect_nil_mask {α : Type} (l : List α) : maskSelect l [] = [] := by
  simp [maskSelect]

lemma maskSelect_cons {α : Type} (a : α) (l : List α) (b : Bool) (mask : List Bool) :
    maskSelect (a :: l) (b :: mask) =
      if b then a :: maskSelect l mask else maskSelect l mask := by
  by_cases hb : b <;> simp [maskSelect, hb]

lemma maskReject_nil {α : Type} (mask : List Bool) : maskReject ([] : List α) mask = [] := by
  simp [maskReject]

lemma maskReject_nil_mask {α : Type} (l : List α) : maskReject l [] = [] := by
  simp [maskReject]

lemma maskReject_cons {α : Type} (a : α) (l : List α) (b : Bool) (mask : List Bool) :
    maskReject (a :: l) (b :: mask) =
      if b then maskReject l mask else a :: maskReject l mask := by
  by_cases hb : b <;> simp [maskReject, hb]

lemma mem_maskSelect {α : Type} {v : α} {l : List α} {mask : List Bool}
    (h : v ∈ maskSelect l mask) : v ∈ l := by
  induction l generalizing mask with
  | nil => simp [maskSelect_nil] at h
  | cons a as ih =>
      cases mask with
      | nil => simp [maskSelect_nil_mask] at h
      | cons b bs =>
          rw [maskSelect_cons] at h
          by_cases hb : b

          · rw [if_pos hb] at h
            rcases List.mem_cons.mp h with h1 | h1
            · simp [h1]
            · exact List.mem_cons_of_mem _ (ih h1)
          · rw [if_neg hb] at h
            exact List.mem_cons_of_mem _ (ih h)

lemma mem_maskReject {α : Type} {v : α} {l : List α} {mask : List Bool}
    (h : v ∈ maskReject l mask) : v ∈ l := by
  induction l generalizing mask with
  | nil => simp [maskReject_nil] at h
  | cons a as ih =>
      cases mask with
      | nil => simp [maskReject_nil_mask] at h
      | cons b bs =>
          rw [maskReject_cons] at h
          by_cases hb : b
          · rw [if_pos hb] at h
            exact List.mem_cons_of_mem _ (ih h)
          · rw [if_neg hb] at h
            rcases List.mem_cons.mp h with h1 | h1
            · simp [h1]
            · exact List.mem_cons_of_mem _ (ih h1)

lemma maskSelect_length_eq {α β : Type} (l1 : List α) (l2 : List β) (mask : List Bool)
    (h : l1.length = l2.length) :
    (maskSelect l1 mask).length = (maskSelect l2 mask).length := by
  induction l1 generalizing l2 mask with
  | nil =>
      cases l2 with
      | nil => rfl
      | cons b bs => simp at h
  | cons a as ih =>
      cases l2 with
      | nil => simp at h
      | cons b bs =>
          cases mask with
          | nil => simp [maskSelect_nil_mask]
          | cons m ms =>
              simp only [maskSelect_cons]
              have h2 : as.length = bs.length := by simpa using h
              by_cases hm : m
              · simp [hm, ih bs ms h2]
              · simp [hm, ih bs ms h2]

lemma maskReject_length_eq {α β : Type} (l1 : List α) (l2 : List β) (mask : List Bool)
    (h : l1.length = l2.length) :
    (maskReject l1 mask).length = (maskReject l2 mask).length := by
  induction l1 generalizing l2 mask with
  | nil =>
      cases l2 with
      | nil => rfl
      | cons b bs => simp at h
  | cons a as ih =>
      cases l2 with
      | nil => simp at h
      | cons b bs =>
          cases mask with
          | nil => simp [maskReject_nil_mask]
          | cons m ms =>
              simp only [maskReject_cons]
              have h2 : as.length = bs.length := by simpa using h
              by_cases hm : m
              · simp [hm, ih bs ms h2]
              · simp [hm, ih bs ms h2]

lemma mem_insertVal {v a : Val} {l : List Val} :
    v ∈ insertVal a l ↔ v = a ∨ v ∈ l := by
  induction l with
  | nil => simp [insertVal]
  | cons b bs ih =>
      by_cases h : valLe a b
      · simp [insertVal, h]
      · simp [insertVal, h, ih]
        tauto

lemma mem_sortVals {v : Val} {l : List Val} : v ∈ sortVals l ↔ v ∈ l := by
  induction l with
  | nil => simp [sortVals]
  | cons a as ih => simp [sortVals, mem_insertVal, ih]

lemma mem_dedupFirst {v : Val} {l : List Val} : v ∈ dedupFirst l ↔ v ∈ l := by
  induction l with
  | nil => simp [dedupFirst]
  | cons a as ih =>
      simp only [dedupFirst, List.mem_cons, List.mem_filter]
      constructor
      · rintro (h | ⟨h, _⟩)
        · simp [h]
        · simp [ih.mp h]
      · rintro (h | h)
        · exact Or.inl h
        · by_cases hv : v = a
          · exact Or.inl hv
          · exact Or.inr ⟨ih.mpr h, by simpa using hv⟩

lemma mem_uniqueSorted {v : Val} {l : List Val} : v ∈ uniqueSorted l ↔ v ∈ l := by
  simp [uniqueSorted, mem_sortVals, mem_dedupFirst]

lemma nodup_dedupFirst (l : List Val) : (dedupFirst l).Nodup := by
  induction l with
  | nil => simp [dedupFirst]
  | cons a as ih =>
      simp only [dedupFirst, List.nodup_cons]
      constructor
      · intro hmem
        have := (List.mem_filter.mp hmem).2
        simp at this
      · exact List.Nodup.filter _ ih

lemma perm_insertVal (a : Val) (l : List Val) : List.Perm (insertVal a l) (a :: l) := by
  induction l with
  | nil => simp [insertVal]
  | cons b bs ih =>
      by_cases h : valLe a b
      · simp [insertVal, h]
      · simp only [insertVal, h, if_neg, Bool.false_eq_true, not_false_iff]
        exact (ih.cons b).trans (List.Perm.swap a b bs)

lemma perm_sortVals (l : List Val) : List.Perm (sortVals l) l := by
  induction l with
  | nil => simp [sortVals]
  | cons a as ih => exact (perm_insertVal a (sortVals as)).trans (ih.cons a)

lemma nodup_uniqueSorted (l : List Val) : (uniqueSorted l).Nodup :=
  (perm_sortVals (dedupFirst l)).nodup_iff.mpr (nodup_dedupFirst l)

lemma sum_map_count_cons (classes : List Val) (v : Val) (rest : List Val) :
    (classes.map (fun c => (v :: rest).count c)).sum =
      (classes.map (fun c => rest.count c)).sum + classes.count v := by
  induction classes with
  | nil => simp
  | cons c cs ihc =>
      simp only [List.map_cons, List.sum_cons, ihc]
      rw [List.count_cons, List.count_cons]
      by_cases hc : c = v
      · subst hc; simp; omega
      · have hc2 : ¬(v = c) := fun h => hc h.symm
        simp [hc, hc2, beq_iff_eq]
        omega

lemma sum_valueOf (classes : List Val) (tg : List Val) (hnd : classes.Nodup)
    (htg : ∀ v ∈ tg, v ∈ classes) : (valueOf classes tg).sum = tg.length := by
  induction tg with
  | nil => simp [valueOf]
  | cons v rest ih =>
      have hv : v ∈ classes := htg v (by simp)
      have hstep : (valueOf classes (v :: rest)).sum =
          (valueOf classes rest).sum + classes.count v := sum_map_count_cons classes v rest
      rw [hstep, ih (fun w hw => htg w (by simp [hw]))]
      have hone : classes.count v = 1 := List.count_eq_one_of_mem hnd hv
      simp [hone]

/-! ### Node invariants established by the builder -/

mutual

/-- All nodes of a tree (the node itself and, recursively, its children). -/
def allNodes : DNode → List DNode
  | .mk f t b d p cs tg v n cl => DNode.mk f t b d p cs tg v n cl :: allNodesCs cs

/-- All nodes hanging off a children list. -/
def allNodesCs : List (Val × DNode) → List DNode
  | [] => []
  | (_, c) :: rest => allNodes c ++ allNodesCs rest

end

lemma self_mem_allNodes (t : DNode) : t ∈ allNodes t := by
  cases t with
  | mk f th b d p cs tg v n cl => simp [allNodes]

lemma mem_allNodesCs_of_mem {c : Val × DNode} {cs : List (Val × DNode)}
    (hc : c ∈ cs) {n : DNode} (hn : n ∈ allNodes c.2) : n ∈ allNodesCs cs := by
  induction cs with
  | nil => simp at hc
  | cons c0 rest ih =>
      obtain ⟨k0, nd0⟩ := c0
      rcases List.mem_cons.mp hc with h1 | h1
      · subst h1
        simp [allNodesCs, hn]
      · simp [allNodesCs, ih h1]

/-- The parent back-reference a builder-constructed node can carry: either
none (the root) or a snapshot of a node whose statistics were computed by
`__post_init__` from a nonempty target slice drawn from the global classes. -/
inductive ParentOk (st : FitState) : Option DNode → Prop where
  | none : ParentOk st none
  | some (f : Val) (th : Option Val) (br : Option Val) (d : ℕ) (pp : Option DNode)
      (cs : List (Val × DNode)) (tg : List Val)
      (htg : ∀ v ∈ tg, v ∈ st.classes) (hne : tg ≠ []) :
      ParentOk st
        (some (.mk f th br d pp cs tg (valueOf st.classes tg) tg.length st.classes))

/-- Invariant of every node the builder constructs: the stored `depth` is the
node's distance from the root (second index), bounded by `max_depth` when
configured; `value` and `n_samples` were computed by `__post_init__` from the
node's target slice; the target slice draws from the global classes; the
parent snapshot is well-formed; and all children satisfy the invariant one
level deeper. -/
inductive NodeInv (st : FitState) (k? : Option ℕ) : DNode → ℕ → Prop where
  | intro (f : Val) (th : Option Val) (br : Option Val) (p : Option DNode)
      (cs : List (Val × DNode)) (tg : List Val) (d : ℕ)
      (hbound : ∀ k, k? = some k → d ≤ k)
      (htg : ∀ v ∈ tg, v ∈ st.classes)
      (hp : ParentOk st p)
      (hcs : ∀ c ∈ cs, NodeInv st k? c.2 (d + 1)) :
      NodeInv st k?
        (.mk f th br d p cs tg (valueOf st.classes tg) tg.length st.classes) d

/-- Depth correctness in the claim's sense: the node's `depth` field equals
the number of edges from the root (`d`), and children sit one level deeper. -/
inductive DepthsFrom : DNode → ℕ → Prop where
  | intro (t : DNode) (d : ℕ) (hd : t.depth = d)
      (hcs : ∀ c ∈ t.children, DepthsFrom c.2 (d + 1)) : DepthsFrom t d

lemma NodeInv.depth_eq {st : FitState} {k? : Option ℕ} {t : DNode} {d : ℕ}
    (h : NodeInv st k? t d) : t.depth = d := by
  cases h with
  | intro f th br p cs tg d hbound htg hp hcs => rfl

lemma NodeInv.children_inv {st : FitState} {k? : Option ℕ} {t : DNode} {d : ℕ}
    (h : NodeInv st k? t d) : ∀ c ∈ t.children, NodeInv st k? c.2 (d + 1) := by
  cases h with
  | intro f th br p cs tg d hbound htg hp hcs => exact hcs

lemma NodeInv.depthsFrom {st : FitState} {k? : Option ℕ} {t : DNode} {d : ℕ}
    (h : NodeInv st k? t d) : DepthsFrom t d := by
  induction h with
  | intro f th br p cs tg d hbound htg hp hcs ih =>
      exact DepthsFrom.intro _ _ rfl ih

lemma mem_allNodesCs_elim {n : DNode} {cs : List (Val × DNode)}
    (h : n ∈ allNodesCs cs) : ∃ c ∈ cs, n ∈ allNodes c.2 := by
  induction cs with
  | nil => simp [allNodesCs] at h
  | cons c0 rest ih =>
      obtain ⟨k0, nd0⟩ := c0
      rw [allNodesCs] at h
      rcases List.mem_append.mp h with h2 | h2
      · exact ⟨(k0, nd0), by simp, h2⟩
      · obtain ⟨c, hc1, hc2⟩ := ih h2
        exact ⟨c, by simp [hc1], hc2⟩

/-- Every node of an invariant-satisfying tree has correct statistics, a
well-formed parent snapshot and a bounded depth. -/
lemma NodeInv.allNodes_props {st : FitState} {k? : Option ℕ} {t : DNode} {d : ℕ}
    (h : NodeInv st k? t d) :
    ∀ n ∈ allNodes t,
      n.value = valueOf st.classes n.target ∧ n.nSamples = n.target.length ∧
      (∀ v ∈ n.target, v ∈ st.classes) ∧ ParentOk st n.parent ∧
      (∀ k, k? = some k → n.depth ≤ k) := by
  induction h with
  | intro f th br p cs tg d hbound htg hp hcs ih =>
      intro n hn
      rw [allNodes] at hn
      rcases List.mem_cons.mp hn with h1 | h1
      · subst h1
        exact ⟨rfl, rfl, htg, hp, hbound⟩
      · obtain ⟨c, hc1, hc2⟩ := mem_allNodesCs_elim h1
        exact ih c hc1 n hc2

lemma mapMExcept_ok_mem {α β : Type} {f : α → Except PyErr β} {l : List α}
    {rs : List β} (h : mapMExcept f l = .ok rs) : ∀ r ∈ rs, ∃ a ∈ l, f a = .ok r := by
  induction l generalizing rs with
  | nil =>
      unfold mapMExcept at h
      cases h
      simp
  | cons a as ih =>
      unfold mapMExcept at h
      cases hfa : f a with
      | error e => rw [hfa] at h; cases h
      | ok b =>
          rw [hfa] at h
          cases hrest : mapMExcept f as with
          | error e => rw [hrest] at h; cases h
          | ok bs =>
              rw [hrest] at h
              cases h
              intro r hr
              rcases List.mem_cons.mp hr with h1 | h1
              · exact ⟨a, by simp, by rw [hfa, h1]⟩
              · obtain ⟨a2, ha2, hfa2⟩ := ih hrest r h1
                exact ⟨a2, by simp [ha2], hfa2⟩

lemma deleteCol_length (M : Mat) (i : ℕ) : (deleteCol M i).length = M.length := by
  simp [deleteCol]

/-- The sub-partition triples a `PartResult` carries. -/
def partsOf : PartResult → List (Mat × List Val × Val)
  | .numericParts l => l
  | .catPart p => [p]

lemma partitionData_props {X : Mat} {y : List Val} {i : ℕ} {lvl : Val} {nd : DNode}
    {r : PartResult} (halign : X.length = y.length)
    (h : partitionData X y i lvl nd = .ok r) :
    ∀ s ∈ partsOf r, (∀ v ∈ s.2.1, v ∈ y) ∧ s.1.length = s.2.1.length := by
  unfold partitionData at h
  split at h
  · -- numerical node: match on the mask computation, then the two asserts
    split at h
    · cases h
    · split at h
      · split at h
        · cases h
          intro s hs
          rcases List.mem_cons.mp hs with hs1 | hs1
          · subst hs1
            exact ⟨fun v hv => mem_maskSelect hv,
              maskSelect_length_eq X y _ halign⟩
          · rcases List.mem_cons.mp hs1 with hs2 | hs2
            · subst hs2
              exact ⟨fun v hv => mem_maskReject hv,
                maskReject_length_eq X y _ halign⟩
            · simp at hs2
        · cases h
      · cases h
  · -- categorical node
    cases h
    intro s hs
    rcases List.mem_cons.mp hs with hs1 | hs1
    · subst hs1
      refine ⟨fun v hv => mem_maskSelect hv, ?_⟩
      rw [deleteCol_length]
      exact maskSelect_length_eq X y _ halign
    · simp at hs1

lemma attachChild_target (nd : DNode) (br : Val) (c : DNode) :
    (attachChild nd br c).target = nd.target := by
  cases nd with
  | mk f t b d p cs tg v n cl => rfl

lemma NodeInv.attachChild {st : FitState} {k? : Option ℕ} {nd : DNode} {d : ℕ}
    (h : NodeInv st k? nd d) {br : Val} {child : DNode}
    (hc : NodeInv st k? child (d + 1)) :
    NodeInv st k? (Mpitree.attachChild nd br child) d := by
  cases h with
  | intro f th br0 p cs tg d hbound htg hp hcs =>
      refine NodeInv.intro f th br0 p (cs ++ [(br, child)]) tg d hbound htg hp ?_
      intro c hcmem
      rcases List.mem_append.mp hcmem with h1 | h1
      · exact hcs c h1
      · simp at h1
        rw [h1]
        exact hc

lemma NodeInv.setThreshold {st : FitState} {k? : Option ℕ} {nd : DNode} {d : ℕ}
    (h : NodeInv st k? nd d) (t : Option Val) :
    NodeInv st k? (Mpitree.setThreshold nd t) d := by
  cases h with
  | intro f th br0 p cs tg d hbound htg hp hcs =>
      exact NodeInv.intro f t br0 p cs tg d hbound htg hp hcs

lemma nodeInv_mkDecisionNode {st : FitState} {k? : Option ℕ} (f : Val)
    (parent : Option DNode) (br : Option Val) (tg : List Val)
    (hbound : ∀ k, k? = some k → pdepth parent ≤ k)
    (htg : ∀ v ∈ tg, v ∈ st.classes) (hp : ParentOk st parent) :
    NodeInv st k? (mkDecisionNode f parent br tg st.classes) (pdepth parent) :=
  NodeInv.intro f none br parent [] tg (pdepth parent) hbound htg hp (by simp)

lemma ParentOk.of_nodeInv {st : FitState} {k? : Option ℕ} {nd : DNode} {d : ℕ}
    (h : NodeInv st k? nd d) (hne : nd.target ≠ []) : ParentOk st (Option.some nd) := by
  cases h with
  | intro f2 th2 br2 p2 cs2 tg2 d2 hbound htg hp hcs =>
      exact ParentOk.some _ _ _ _ _ _ _ htg (by simpa [DNode.target] using hne)

/-- Invariant through the child-attachment loop: if every recursive build at
the next depth produces an invariant-satisfying subtree, the loop preserves
the split node's invariant while attaching children. -/
lemma buildChildrenLoop_inv {cfg : TreeConfig} {st : FitState} {fuel : ℕ}
    (IH : ∀ (X : Mat) (y : List Val) (fi : List ℕ) (parent : Option DNode)
      (branch : Option Val) (depth : ℕ) (t : DNode),
      treeBuilder cfg st fuel X y fi parent branch depth = .ok t →
      depth = pdepth parent → (∀ v ∈ y, v ∈ st.classes) →
      (∀ k, cfg.maxDepth = some k → depth ≤ k) →
      ParentOk st parent → X.length = y.length →
      NodeInv st cfg.maxDepth t depth) :
    ∀ (subs : List (Mat × List Val × Val)) (fi : List ℕ) (depth : ℕ) (nd t : DNode),
      buildChildrenLoop (treeBuilder cfg st fuel) fi depth subs nd = .ok t →
      NodeInv st cfg.maxDepth nd depth →
      nd.target ≠ [] →
      (∀ k, cfg.maxDepth = some k → depth + 1 ≤ k) →
      (∀ s ∈ subs, (∀ v ∈ s.2.1, v ∈ st.classes) ∧ s.1.length = s.2.1.length) →
      NodeInv st cfg.maxDepth t depth := by
  intro subs
  induction subs with
  | nil =>
      intro fi depth nd t h hinv _ _ _
      unfold buildChildrenLoop at h
      cases h
      exact hinv
  | cons s rest ih =>
      intro fi depth nd t h hinv hne hbound hsubs
      obtain ⟨Xc, yc, br⟩ := s
      unfold buildChildrenLoop at h
      cases hrec : treeBuilder cfg st fuel Xc yc fi (some nd) (some br) (depth + 1) with
      | error e => rw [hrec] at h; cases h
      | ok child =>
          rw [hrec] at h
          have hdn : nd.depth = depth := hinv.depth_eq
          have hchild : NodeInv st cfg.maxDepth child (depth + 1) := by
            have hpd : depth + 1 = pdepth (some nd) := by simp [pdepth, hdn]
            exact IH Xc yc fi (some nd) (some br) (depth + 1) child hrec hpd
              (hsubs (Xc, yc, br) (by simp)).1 hbound
              (ParentOk.of_nodeInv hinv hne) (hsubs (Xc, yc, br) (by simp)).2
          exact ih fi depth (attachChild nd br child) t h
            (hinv.attachChild hchild)
            (by rw [attachChild_target]; exact hne)
            hbound
            (fun s2 hs2 => hsubs s2 (by simp [hs2]))

/-- The master invariant: every successful run of `_tree_builder` with a
well-formed parent, the depth argument matching the parent's depth, targets
drawn from the global classes, aligned partition lengths, and the depth still
within `max_depth`, yields an invariant-satisfying tree. -/
lemma treeBuilder_inv (cfg : TreeConfig) (st : FitState) :
    ∀ (fuel : ℕ) (X : Mat) (y : List Val) (fi : List ℕ) (parent : Option DNode)
      (branch : Option Val) (depth : ℕ) (t : DNode),
      treeBuilder cfg st fuel X y fi parent branch depth = .ok t →
      depth = pdepth parent →
      (∀ v ∈ y, v ∈ st.classes) →
      (∀ k, cfg.maxDepth = some k → depth ≤ k) →
      ParentOk st parent →
      X.length = y.length →
      NodeInv st cfg.maxDepth t depth := by
  intro fuel
  induction fuel with
  | zero =>
      intro X y fi parent branch depth t h
      unfold treeBuilder at h
      cases h
  | succ fuel ihfuel =>
      intro X y fi parent branch depth t h hdep hy hbound hpok halign
      unfold treeBuilder at h
      simp only [] at h
      split at h
      · -- rule 1: single target class
        split at h
        · cases h
        · cases h
          rw [hdep]
          exact nodeInv_mkDecisionNode _ parent branch y
            (by rw [← hdep]; exact hbound) hy hpok
      · split at h
        · -- rule 2: empty partition, with a parent
          split at h
          · cases h
          · split at h
            · cases h
            · cases h
              rw [hdep]
              exact nodeInv_mkDecisionNode _ _ branch y
                (by rw [← hdep]; exact hbound) hy hpok
        · split at h
          · -- rule 3: all rows identical
            split at h
            · cases h
            · cases h
              rw [hdep]
              exact nodeInv_mkDecisionNode _ parent branch y
                (by rw [← hdep]; exact hbound) hy hpok
          · split at h
            · -- rule 4: depth == max_depth
              split at h
              · cases h
              · cases h
                rw [hdep]
                exact nodeInv_mkDecisionNode _ parent branch y
                  (by rw [← hdep]; exact hbound) hy hpok
            · split at h
              · -- rule 5: too few samples
                split at h
                · cases h
                · cases h
                  rw [hdep]
                  exact nodeInv_mkDecisionNode _ parent branch y
                    (by rw [← hdep]; exact hbound) hy hpok
              · -- split case
                rename_i hrule1 hrule2 hrule3 hrule4 hrule5
                have hXne : X ≠ [] := by
                  intro hX
                  subst hX
                  simp [sizeMat] at hrule2
                have hyne : y ≠ [] := by
                  intro hy0
                  rw [hy0] at halign
                  simp at halign
                  exact hXne halign
                have hbound1 : ∀ k, cfg.maxDepth = some k → depth + 1 ≤ k := by
                  intro k hk
                  have h1 := hbound k hk
                  have h2 : depth ≠ k := by
                    intro hdk
                    rw [hk, hdk] at hrule4
                    exact hrule4 rfl
                  omega
                split at h
                · cases h
                · rename_i gainsThresholds hgains
                  split at h
                  · cases h
                  · rename_i normIdx hnorm
                    split at h
                    · cases h
                    · rename_i splitFeature hname
                      split at h
                      · cases h
                      · rename_i levels hlevels
                        split at h
                        · -- numerical split
                          rename_i hnum
                          split at h
                          · cases h
                          · rename_i partResults hparts
                            split at h
                            · rename_i subs hhead
                              have hsubsets : ∀ s ∈ subs,
                                  (∀ v ∈ s.2.1, v ∈ st.classes) ∧
                                  s.1.length = s.2.1.length := by
                                intro s hs
                                have hmem : PartResult.numericParts subs ∈
                                    partResults := by
                                  cases partResults with
                                  | nil => simp at hhead
                                  | cons r0 rrest =>
                                      simp at hhead
                                      simp [hhead]
                                obtain ⟨lvl, _, hpart⟩ :=
                                  mapMExcept_ok_mem hparts _ hmem
                                have := partitionData_props halign hpart s
                                  (by simpa [partsOf] using hs)
                                exact ⟨fun v hv => hy v (this.1 v hv), this.2⟩
                              refine buildChildrenLoop_inv ihfuel subs fi depth _ t
                                h ?_ ?_ hbound1 hsubsets
                              · rw [hdep]
                                exact NodeInv.setThreshold
                                  (nodeInv_mkDecisionNode _ parent branch y
                                    (by rw [← hdep]; exact hbound) hy hpok) _
                              · cases hnd : mkDecisionNode splitFeature parent
                                  branch y st.classes with
                                | mk f2 th2 br2 d2 p2 cs2 tg2 v2 n2 cl2 =>
                                    have htg2 : tg2 = y := by
                                      have := congrArg DNode.target hnd
                                      simpa [mkDecisionNode, DNode.target] using
                                        this.symm
                                    simp [Mpitree.setThreshold, DNode.target, htg2,
                                      hyne]
                            · cases h
                            · cases h
                        · -- categorical split
                          rename_i hnum
                          split at h
                          · cases h
                          · rename_i partResults hparts
                            have hsubsets : ∀ s ∈ partResults.filterMap
                                (fun r =>
                                  match r with
                                  | PartResult.catPart p => some p
                                  | PartResult.numericParts _ => none),
                                (∀ v ∈ s.2.1, v ∈ st.classes) ∧
                                s.1.length = s.2.1.length := by
                              intro s hs
                              simp only [List.mem_filterMap] at hs
                              obtain ⟨r, hr, hrs⟩ := hs
                              cases r with
                              | numericParts l => simp at hrs
                              | catPart p =>
                                  simp at hrs
                                  obtain ⟨lvl, _, hpart⟩ :=
                                    mapMExcept_ok_mem hparts _ hr
                                  have hp := partitionData_props halign hpart p
                                    (by simp [partsOf])
                                  rw [← hrs]
                                  exact ⟨fun v hv => hy v (hp.1 v hv), hp.2⟩
                            refine buildChildrenLoop_inv ihfuel _ _ depth _ t h
                              ?_ ?_ hbound1 hsubsets
                            · rw [hdep]
                              exact nodeInv_mkDecisionNode _ parent branch y
                                (by rw [← hdep]; exact hbound) hy hpok
                            · cases hnd : mkDecisionNode splitFeature parent
                                branch y st.classes with
                              | mk f2 th2 br2 d2 p2 cs2 tg2 v2 n2 cl2 =>
                                  have htg2 : tg2 = y := by
                                    have := congrArg DNode.target hnd
                                    simpa [mkDecisionNode, DNode.target] using
                                      this.symm
                                  simp [DNode.target, htg2, hyne]

lemma lookupChild_mem {cs : List (Val × DNode)} {k : Val} {c : DNode}
    (h : lookupChild cs k = some c) : ∃ p ∈ cs, p.2 = c := by
  induction cs with
  | nil => unfold lookupChild at h; cases h
  | cons p0 rest ih =>
      obtain ⟨k0, c0⟩ := p0
      unfold lookupChild at h
      by_cases hk : k0 = k
      · rw [if_pos hk] at h
        injection h with h2
        exact ⟨(k0, c0), by simp, h2⟩
      · rw [if_neg hk] at h
        obtain ⟨p, hp1, hp2⟩ := ih h
        exact ⟨p, by simp [hp1], hp2⟩

lemma getItem_ok_mem {nd : DNode} {v : Val} {c : DNode} (h : getItem nd v = .ok c) :
    ∃ p ∈ nd.children, p.2 = c := by
  unfold getItem at h
  split at h
  · split at h
    · cases h
    · rename_i b hb
      simp only [] at h
      cases hl : lookupChild nd.children
          (if b then Val.str "False" else Val.str "True") with
      | some c0 =>
          rw [hl] at h
          have h2 : Except.ok (ε := PyErr) c0 = Except.ok c := h
          injection h2 with h3
          obtain ⟨p, hp1, hp2⟩ := lookupChild_mem hl
          exact ⟨p, hp1, hp2.trans h3⟩
      | none =>
          rw [hl] at h
          have h2 : Except.error (α := DNode)
              (PyErr.keyError (if b then Val.str "False" else Val.str "True")) =
              Except.ok c := h
          cases h2
  · cases hl : lookupChild nd.children v with
    | some c0 =>
        rw [hl] at h
        have h2 : Except.ok (ε := PyErr) c0 = Except.ok c := h
        injection h2 with h3
        obtain ⟨p, hp1, hp2⟩ := lookupChild_mem hl
        exact ⟨p, hp1, hp2.trans h3⟩
    | none =>
        rw [hl] at h
        have h2 : Except.error (α := DNode) (PyErr.keyError v) = Except.ok c := h
        cases h2

lemma mem_allNodes_of_child {nd c n : DNode} {p : Val × DNode}
    (hp : p ∈ nd.children) (hpc : p.2 = c) (hn : n ∈ allNodes c) :
    n ∈ allNodes nd := by
  cases nd with
  | mk f th b d pr cs tg v ns cl =>
      rw [allNodes]
      refine List.mem_cons_of_mem _ ?_
      exact mem_allNodesCs_of_mem (by simpa [DNode.children] using hp)
        (by rw [hpc]; exact hn)

lemma treeWalk_mem {st : FitState} : ∀ (fuel : ℕ) (x : List Val) (t leaf : DNode),
    treeWalk st fuel x t = .ok leaf → leaf ∈ allNodes t := by
  intro fuel
  induction fuel with
  | zero => intro x t leaf h; unfold treeWalk at h; cases h
  | succ fuel ih =>
      intro x t leaf h
      unfold treeWalk at h
      split at h
      · cases h
        exact self_mem_allNodes _
      · split at h
        · cases h
        · split at h
          · cases h
          · split at h
            · cases h
            · rename_i child hchild
              obtain ⟨p, hp1, hp2⟩ := getItem_ok_mem hchild
              exact mem_allNodes_of_child hp1 hp2 (ih x child leaf h)

lemma sum_map_div_nat (l : List ℕ) (n : ℚ) :
    (l.map (fun c : ℕ => (c : ℚ) / n)).sum = (l.sum : ℚ) / n := by
  induction l with
  | nil => simp
  | cons a as ih =>
      simp only [List.map_cons, List.sum_cons, ih]
      push_cast
      ring

/-- C7: every tree produced by `fit` stores depths that count the edges from
the root (root depth 0, each child one deeper), and when `max_depth = k` is
configured no node's depth exceeds `k`. -/
theorem C7_depths_correct_and_bounded (cfg : TreeConfig) (fuel : ℕ) (X : Mat)
    (y : List Val) (f : FittedClassifier) (h : fitClassifier cfg fuel X y = .ok f) :
    DepthsFrom f.tree 0 ∧
    ∀ k, cfg.maxDepth = some k → ∀ n ∈ allNodes f.tree, n.depth ≤ k := by
  unfold fitClassifier at h
  split at h
  · rename_i hvalid
    simp only [] at h
    split at h
    · cases h
    · rename_i t ht
      cases h
      have hinv := treeBuilder_inv cfg _ fuel X y _ none none 0 t ht rfl
        (fun v hv => mem_uniqueSorted.mpr hv) (fun k _ => Nat.zero_le k)
        ParentOk.none hvalid.1
      exact ⟨hinv.depthsFrom,
        fun k hk n hn => (hinv.allNodes_props n hn).2.2.2.2 k hk⟩
  · cases h

/-- The fitted state and tree produced on the one-sample dataset
`X = [[1]]`, `y = ["a"]` (the builder stops at rule 1 with a root leaf). -/
def c7Fixture : FittedClassifier :=
  ⟨⟨[Val.str "feature_0"], [Val.str "a"], [[Val.str "True", Val.str "False"]]⟩,
    DNode.mk (Val.str "a") none none 0 none [] [Val.str "a"] [1] 1 [Val.str "a"]⟩

/-- Witness for `C7_depths_correct_and_bounded` on a concrete fit. -/
theorem C7_depths_correct_and_bounded_witness :
    DepthsFrom c7Fixture.tree 0 ∧
    ∀ k, (⟨some 3, 2⟩ : TreeConfig).maxDepth = some k →
      ∀ n ∈ allNodes c7Fixture.tree, n.depth ≤ k :=
  C7_depths_correct_and_bounded ⟨some 3, 2⟩ 2 [[Val.num 1]] [Val.str "a"]
    c7Fixture (by rfl)

/-- C9: in every fitted tree, each node's `value` has one entry per global
class and sums to the node's `n_samples`; and every successful
`predict_proba` row — `value / n_samples`, or `parent.value /
parent.n_samples` for a zero-sample leaf — sums to 1. -/
theorem C9_value_and_proba_normalised (cfg : TreeConfig) (fuel : ℕ) (X : Mat)
    (y : List Val) (f : FittedClassifier) (h : fitClassifier cfg fuel X y = .ok f) :
    (∀ n ∈ allNodes f.tree, n.value.length = f.state.classes.length ∧
      n.value.sum = n.nSamples) ∧
    (∀ fuel2 x probs, predictProbaRow f.state fuel2 x f.tree = .ok probs →
      probs.sum = 1) := by
  unfold fitClassifier at h
  split at h
  · rename_i hvalid
    simp only [] at h
    split at h
    · cases h
    · rename_i t ht
      cases h
      have hnodup : (uniqueSorted y).Nodup := nodup_uniqueSorted y
      have hinv := treeBuilder_inv cfg _ fuel X y _ none none 0 t ht rfl
        (fun v hv => mem_uniqueSorted.mpr hv) (fun k _ => Nat.zero_le k)
        ParentOk.none hvalid.1
      have hprops := hinv.allNodes_props
      constructor
      · intro n hn
        obtain ⟨hv, hns, htg, _, _⟩ := hprops n hn
        constructor
        · rw [hv]
          simp [valueOf]
        · rw [hv, hns]
          exact sum_valueOf _ _ hnodup htg
      · intro fuel2 x probs hp
        unfold predictProbaRow at hp
        split at hp
        · cases hp
        · rename_i leaf hwalk
          have hleaf := hprops leaf (treeWalk_mem fuel2 x t leaf hwalk)
          obtain ⟨hv, hns, htg, hpar, _⟩ := hleaf
          unfold computeClassProba at hp
          split at hp
          · rename_i hzero
            cases hpok2 : leaf.parent with
            | none => rw [hpok2] at hp; cases hp
            | some p =>
                rw [hpok2] at hp
                cases hp
                rw [hpok2] at hpar
                cases hpar with
                | some f2 th2 br2 d2 pp2 cs2 tg2 htg2 hne2 =>
                    simp only [DNode.value, DNode.nSamples]
                    rw [sum_map_div_nat,
                      sum_valueOf _ _ hnodup htg2]
                    have : tg2.length ≠ 0 := fun h0 =>
                      hne2 (List.length_eq_zero.mp h0)
                    rw [div_self (by exact_mod_cast this)]
          · rename_i hnz
            cases hp
            rw [hv, hns, sum_map_div_nat, sum_valueOf _ _ hnodup htg]
            have : leaf.target.length ≠ 0 := by
              rw [← hns]
              exact hnz
            rw [div_self (by exact_mod_cast this)]
  · cases h

/-- The fitted state and tree produced on the two-sample dataset
`X = [[7], [7]]`, `y = ["b", "b"]` (rule 1 stops at a root leaf). -/
def c9Fixture : FittedClassifier :=
  ⟨⟨[Val.str "feature_0"], [Val.str "b"], [[Val.str "True", Val.str "False"]]⟩,
    DNode.mk (Val.str "b") none none 0 none [] [Val.str "b", Val.str "b"] [2] 2
      [Val.str "b"]⟩

/-- Witness for `C9_value_and_proba_normalised` on a concrete fit. -/
theorem C9_value_and_proba_normalised_witness :
    (∀ n ∈ allNodes c9Fixture.tree,
      n.value.length = c9Fixture.state.classes.length ∧
      n.value.sum = n.nSamples) ∧
    (∀ fuel2 x probs,
      predictProbaRow c9Fixture.state fuel2 x c9Fixture.tree = .ok probs →
      probs.sum = 1) :=
  C9_value_and_proba_normalised ⟨none, 2⟩ 2 [[Val.num 7], [Val.num 7]]
    [Val.str "b", Val.str "b"] c9Fixture (by rfl)

/-! ### Concrete evaluation of the threshold search -/

lemma mapMExcept_nil_ok {α β : Type} {f : α → Except PyErr β} :
    mapMExcept f [] = .ok [] := rfl

lemma mapMExcept_cons_ok {α β : Type} {f : α → Except PyErr β} {a : α} {b : β}
    {as : List α} {bs : List β} (ha : f a = .ok b)
    (has : mapMExcept f as = .ok bs) : mapMExcept f (a :: as) = .ok (b :: bs) := by
  unfold mapMExcept
  rw [ha, has]

lemma mapMExcept_cons_err {α β : Type} {f : α → Except PyErr β} {a : α} {e : PyErr}
    {as : List α} (ha : f a = .error e) : mapMExcept f (a :: as) = .error e := by
  unfold mapMExcept
  rw [ha]

lemma costFn_eval {X : Mat} {y : List Val} {i : ℕ} {row : List Val} {t : Val}
    {mask : List Bool} (h1 : row.getLast? = some t)
    (h2 : buildMask (colView X i) t = .ok mask) :
    costFn X y i row = .ok (dotR
      [((maskSelect X mask).length : ℝ) / (X.length : ℝ),
       ((maskReject X mask).length : ℝ) / (X.length : ℝ)]
      [entropy (maskSelect y mask), entropy (maskReject y mask)]) := by
  unfold costFn
  rw [h1]
  simp only []
  rw [h2]
  simp only [splitMask, List.map_cons, List.map_nil]

lemma computeOptimalThreshold_eq {X : Mat} {y : List Val} {i : ℕ} {costs : List ℝ}
    (h : mapMExcept (costFn X y i) X = .ok costs) :
    computeOptimalThreshold X y i =
      .ok (entropy y - minListR costs,
        (X.getD (argminIdx costs) []).getLastD (Val.str "")) := by
  unfold computeOptimalThreshold
  rw [h]

lemma computeInformationGain_numeric_eq {X : Mat} {y : List Val} {i : ℕ} {g : ℝ}
    {t : Val} (hnum : isNumericDtype (colView X i) = true)
    (h : computeOptimalThreshold X y i = .ok (g, t)) :
    computeInformationGain X y i = .ok (g, some t) := by
  unfold computeInformationGain
  rw [if_pos hnum, h]

/-- The feature matrix of the C2 scenario: feature 0 is the numeric column
`[1, 3]`; the last column holds `[10, 20]`. -/
def c2X : Mat := [[Val.num 1, Val.num 10], [Val.num 3, Val.num 20]]

/-- The target vector of the C2 scenario. -/
def c2y : List Val := [Val.str "a", Val.str "b"]

lemma proba_c2y : proba c2y = [1 / 2, 1 / 2] := by
  unfold proba
  rw [show uniqueSorted c2y = [Val.str "a", Val.str "b"] from rfl]
  simp only [List.map_cons, List.map_nil]
  norm_num [show c2y.count (Val.str "a") = 1 from rfl,
    show c2y.count (Val.str "b") = 1 from rfl,
    show c2y.length = 2 from rfl]

lemma c2y_entropy : entropy c2y = 1 :=
  entropy_of_proba_half _ proba_c2y

lemma c2_cost1 : costFn c2X c2y 0 [Val.num 1, Val.num 10] = .ok 1 := by
  have h1 : ([Val.num 1, Val.num 10] : List Val).getLast? = some (Val.num 10) := rfl
  have h2 : buildMask (colView c2X 0) (Val.num 10) = .ok [true, true] := rfl
  rw [costFn_eval h1 h2]
  rw [show maskSelect c2y [true, true] = c2y from rfl,
    show maskReject c2y [true, true] = ([] : List Val) from rfl,
    show (maskSelect c2X [true, true]).length = 2 from rfl,
    show (maskReject c2X [true, true]).length = 0 from rfl,
    show c2X.length = 2 from rfl, entropy_nil, c2y_entropy]
  simp [dotR]

lemma c2_cost2 : costFn c2X c2y 0 [Val.num 3, Val.num 20] = .ok 1 := by
  have h1 : ([Val.num 3, Val.num 20] : List Val).getLast? = some (Val.num 20) := rfl
  have h2 : buildMask (colView c2X 0) (Val.num 20) = .ok [true, true] := rfl
  rw [costFn_eval h1 h2]
  rw [show maskSelect c2y [true, true] = c2y from rfl,
    show maskReject c2y [true, true] = ([] : List Val) from rfl,
    show (maskSelect c2X [true, true]).length = 2 from rfl,
    show (maskReject c2X [true, true]).length = 0 from rfl,
    show c2X.length = 2 from rfl, entropy_nil, c2y_entropy]
  simp [dotR]

lemma c2_costs : mapMExcept (costFn c2X c2y 0) c2X = .ok [1, 1] :=
  mapMExcept_cons_ok c2_cost1 (mapMExcept_cons_ok c2_cost2 mapMExcept_nil_ok)

lemma c2_argmin : argminIdx [(1 : ℝ), 1] = 0 :=
  argminIdx_eq_zero 1 [1] (by
    intro x hx
    simp at hx
    subst hx
    norm_num)

/-- C2 (code evaluation): on a partition whose numeric feature 0 holds
`[1, 3]` while the last column holds `[10, 20]`, the optimal-threshold search
for feature 0 returns the threshold `10` — a value of the LAST column
(`x[-1]` in `cost`, `X[idx, -1]` for `t_hat`), not one of the observed values
`{1, 3}` of the feature column being split. -/
theorem C2_thresholds_come_from_last_column :
    (computeOptimalThreshold c2X c2y 0).map Prod.snd = .ok (Val.num 10) ∧
    Val.num 10 ∉ colView c2X 0 ∧
    Val.num 10 ∈ colView c2X 1 := by
  refine ⟨?_, by decide, by decide⟩
  rw [computeOptimalThreshold_eq c2_costs, c2_argmin]
  rfl

/-! ### C10: a fit run on which the partition assertion fails -/

/-- Training matrix of the C10 scenario: one numeric feature `[1, 1, 2, 2]`. -/
def c10X : Mat := [[Val.num 1], [Val.num 1], [Val.num 2], [Val.num 2]]

/-- Target vector of the C10 scenario: `[a, b, a, b]` — every candidate
threshold splits the classes evenly, so all costs tie and `np.argmin` picks
index 0, whose threshold equals the column minimum. -/
def c10y : List Val := [Val.str "a", Val.str "b", Val.str "a", Val.str "b"]

/-- The fit-time state `fit` computes on the C10 data. -/
def c10st : FitState :=
  ⟨[Val.str "feature_0"], [Val.str "a", Val.str "b"],
   [[Val.str "True", Val.str "False"]]⟩

lemma proba_c10y : proba c10y = [1 / 2, 1 / 2] := by
  unfold proba
  rw [show uniqueSorted c10y = [Val.str "a", Val.str "b"] from rfl]
  simp only [List.map_cons, List.map_nil]
  norm_num [show c10y.count (Val.str "a") = 2 from rfl,
    show c10y.count (Val.str "b") = 2 from rfl,
    show c10y.length = 4 from rfl]

lemma c10y_entropy : entropy c10y = 1 :=
  entropy_of_proba_half _ proba_c10y

lemma c10_cost1 : costFn c10X c10y 0 [Val.num 1] = .ok 1 := by
  have h1 : ([Val.num 1] : List Val).getLast? = some (Val.num 1) := rfl
  have h2 : buildMask (colView c10X 0) (Val.num 1) =
      .ok [false, false, false, false] := rfl
  rw [costFn_eval h1 h2]
  rw [show maskSelect c10y [false, false, false, false] = ([] : List Val) from rfl,
    show maskReject c10y [false, false, false, false] = c10y from rfl,
    show (maskSelect c10X [false, false, false, false]).length = 0 from rfl,
    show (maskReject c10X [false, false, false, false]).length = 4 from rfl,
    show c10X.length = 4 from rfl, entropy_nil, c10y_entropy]
  norm_num [dotR]

lemma c10_cost2 : costFn c10X c10y 0 [Val.num 2] = .ok 1 := by
  have h1 : ([Val.num 2] : List Val).getLast? = some (Val.num 2) := rfl
  have h2 : buildMask (colView c10X 0) (Val.num 2) =
      .ok [true, true, false, false] := rfl
  rw [costFn_eval h1 h2]
  rw [show maskSelect c10y [true, true, false, false] = c2y from rfl,
    show maskReject c10y [true, true, false, false] = c2y from rfl,
    show (maskSelect c10X [true, true, false, false]).length = 2 from rfl,
    show (maskReject c10X [true, true, false, false]).length = 2 from rfl,
    show c10X.length = 4 from rfl, c2y_entropy]
  norm_num [dotR]

lemma c10_costs : mapMExcept (costFn c10X c10y 0) c10X = .ok [1, 1, 1, 1] :=
  mapMExcept_cons_ok c10_cost1 (mapMExcept_cons_ok c10_cost1
    (mapMExcept_cons_ok c10_cost2 (mapMExcept_cons_ok c10_cost2 mapMExcept_nil_ok)))

lemma c10_argmin : argminIdx [(1 : ℝ), 1, 1, 1] = 0 :=
  argminIdx_eq_zero 1 [1, 1, 1] (by
    intro x hx
    simp at hx
    subst hx
    norm_num)

lemma c10_gain : computeInformationGain c10X c10y 0 =
    .ok (entropy c10y - minListR [1, 1, 1, 1], some (Val.num 1)) := by
  apply computeInformationGain_numeric_eq (by rfl)
  rw [computeOptimalThreshold_eq c10_costs, c10_argmin]
  rfl

lemma c10_gains : mapMExcept (computeInformationGain c10X c10y)
    (List.range (ncols c10X)) =
    .ok [(entropy c10y - minListR [1, 1, 1, 1], some (Val.num 1))] := by
  rw [show List.range (ncols c10X) = [0] from rfl]
  exact mapMExcept_cons_ok c10_gain mapMExcept_nil_ok

lemma c10_builder : treeBuilder ⟨none, 2⟩ c10st 3 c10X c10y [0] none none 0 =
    .error .assertionError := by
  unfold treeBuilder
  rw [c10_gains]
  rfl

/-- C10 (code evaluation): fitting on `X = [[1], [1], [2], [2]]`,
`y = [a, b, a, b]` makes the split search choose threshold `1` — the column
minimum, because every candidate's weighted entropy ties at `H(y)` and
`np.argmin` returns the first index — so the strict-less mask is all-`False`,
the left sub-partition is empty, and the `assert` in `_partition_data`
fails: training raises `AssertionError`. -/
theorem C10_partition_assert_fails :
    fitClassifier ⟨none, 2⟩ 3 c10X c10y = .error .assertionError := by
  have step : fitClassifier ⟨none, 2⟩ 3 c10X c10y =
      (match treeBuilder ⟨none, 2⟩ c10st 3 c10X c10y [0] none none 0 with
       | .error e => Except.error e
       | .ok t => .ok (⟨c10st, t⟩ : FittedClassifier)) := rfl
  rw [step, c10_builder]

/-! ### C3 / C6: a two-feature categorical fit exercising the
`unique_levels_` local-index lookup after a column drop -/

/-- Training matrix for the C3 scenario: categorical feature 0 with domain
`{A, B}` and categorical feature 1 with domain `{C, D}`. -/
def c3X : Mat :=
  [[Val.str "A", Val.str "C"], [Val.str "A", Val.str "D"],
   [Val.str "B", Val.str "C"], [Val.str "B", Val.str "D"]]

/-- Target vector for the C3 scenario (XOR of the two features, so the root
gain ties at 0 for both features and `np.argmax` picks feature 0). -/
def c3y : List Val :=
  [Val.str "yes", Val.str "no", Val.str "no", Val.str "yes"]

/-- The fit-time state computed on the C3 data. -/
def c3st : FitState :=
  ⟨[Val.str "feature_0", Val.str "feature_1"], [Val.str "no", Val.str "yes"],
   [[Val.str "A", Val.str "B"], [Val.str "C", Val.str "D"]]⟩

lemma proba_c3y : proba c3y = [1 / 2, 1 / 2] := by
  unfold proba
  rw [show uniqueSorted c3y = [Val.str "no", Val.str "yes"] from rfl]
  simp only [List.map_cons, List.map_nil]
  norm_num [show c3y.count (Val.str "no") = 2 from rfl,
    show c3y.count (Val.str "yes") = 2 from rfl,
    show c3y.length = 4 from rfl]

lemma c3y_entropy : entropy c3y = 1 :=
  entropy_of_proba_half _ proba_c3y

lemma proba_yes_no : proba [Val.str "yes", Val.str "no"] = [1 / 2, 1 / 2] := by
  unfold proba
  rw [show uniqueSorted [Val.str "yes", Val.str "no"] =
    [Val.str "no", Val.str "yes"] from rfl]
  simp only [List.map_cons, List.map_nil]
  norm_num [show ([Val.str "yes", Val.str "no"] : List Val).count (Val.str "no") = 1
    from rfl,
    show ([Val.str "yes", Val.str "no"] : List Val).count (Val.str "yes") = 1 from rfl,
    show ([Val.str "yes", Val.str "no"] : List Val).length = 2 from rfl]

lemma proba_no_yes : proba [Val.str "no", Val.str "yes"] = [1 / 2, 1 / 2] := by
  unfold proba
  rw [show uniqueSorted [Val.str "no", Val.str "yes"] =
    [Val.str "no", Val.str "yes"] from rfl]
  simp only [List.map_cons, List.map_nil]
  norm_num [show ([Val.str "no", Val.str "yes"] : List Val).count (Val.str "no") = 1
    from rfl,
    show ([Val.str "no", Val.str "yes"] : List Val).count (Val.str "yes") = 1 from rfl,
    show ([Val.str "no", Val.str "yes"] : List Val).length = 2 from rfl]

lemma entropy_yes_no : entropy [Val.str "yes", Val.str "no"] = 1 :=
  entropy_of_proba_half _ proba_yes_no

lemma entropy_no_yes : entropy [Val.str "no", Val.str "yes"] = 1 :=
  entropy_of_proba_half _ proba_no_yes

lemma proba_c3col0 : proba (colView c3X 0) = [1 / 2, 1 / 2] := by
  unfold proba
  rw [show uniqueSorted (colView c3X 0) = [Val.str "A", Val.str "B"] from rfl]
  simp only [List.map_cons, List.map_nil]
  norm_num [show (colView c3X 0).count (Val.str "A") = 2 from rfl,
    show (colView c3X 0).count (Val.str "B") = 2 from rfl,
    show (colView c3X 0).length = 4 from rfl]

lemma proba_c3col1 : proba (colView c3X 1) = [1 / 2, 1 / 2] := by
  unfold proba
  rw [show uniqueSorted (colView c3X 1) = [Val.str "C", Val.str "D"] from rfl]
  simp only [List.map_cons, List.map_nil]
  norm_num [show (colView c3X 1).count (Val.str "C") = 2 from rfl,
    show (colView c3X 1).count (Val.str "D") = 2 from rfl,
    show (colView c3X 1).length = 4 from rfl]

lemma c3_gain0 : computeInformationGain c3X c3y 0 = .ok (0, none) := by
  unfold computeInformationGain
  rw [if_neg (show ¬isNumericDtype (colView c3X 0) = true from by decide)]
  simp only []
  rw [show uniqueSorted (colView c3X 0) = [Val.str "A", Val.str "B"] from rfl]
  simp only [List.map_cons, List.map_nil]
  rw [show selectWhereEq c3y (colView c3X 0) (Val.str "A") =
      [Val.str "yes", Val.str "no"] from rfl,
    show selectWhereEq c3y (colView c3X 0) (Val.str "B") =
      [Val.str "no", Val.str "yes"] from rfl,
    proba_c3col0, entropy_yes_no, entropy_no_yes, c3y_entropy]
  norm_num [dotQR]

lemma c3_gain1 : computeInformationGain c3X c3y 1 = .ok (0, none) := by
  unfold computeInformationGain
  rw [if_neg (show ¬isNumericDtype (colView c3X 1) = true from by decide)]
  simp only []
  rw [show uniqueSorted (colView c3X 1) = [Val.str "C", Val.str "D"] from rfl]
  simp only [List.map_cons, List.map_nil]
  rw [show selectWhereEq c3y (colView c3X 1) (Val.str "C") =
      [Val.str "yes", Val.str "no"] from rfl,
    show selectWhereEq c3y (colView c3X 1) (Val.str "D") =
      [Val.str "no", Val.str "yes"] from rfl,
    proba_c3col1, entropy_yes_no, entropy_no_yes, c3y_entropy]
  norm_num [dotQR]

lemma c3_gains : mapMExcept (computeInformationGain c3X c3y)
    (List.range (ncols c3X)) = .ok [(0, none), (0, none)] := by
  rw [show List.range (ncols c3X) = [0, 1] from rfl]
  exact mapMExcept_cons_ok c3_gain0 (mapMExcept_cons_ok c3_gain1 mapMExcept_nil_ok)

lemma c3_argmax : argmaxIdx [(0 : ℝ), 0] = 0 :=
  argmaxIdx_eq_zero 0 [0] (by
    intro x hx
    simp at hx
    subst hx
    norm_num)

/-- The tree `fit` builds on the C3 data.  Both depth-1 nodes split
`feature_1` (whose domain is `{C, D}`) but attach their children under the
branch labels `A` and `B` — `unique_levels_[0]`, the domain of the already
consumed `feature_0` — so all four grandchildren are empty-partition leaves
labelled by the parent's majority class. -/
def c3tree : DNode :=
  let classes := [Val.str "no", Val.str "yes"]
  let root0 := mkDecisionNode (Val.str "feature_0") none none c3y classes
  let nodeA0 := mkDecisionNode (Val.str "feature_1") (some root0)
    (some (Val.str "A")) [Val.str "yes", Val.str "no"] classes
  let leafAA := mkDecisionNode (Val.str "yes") (some nodeA0)
    (some (Val.str "A")) [] classes
  let nodeA1 := attachChild nodeA0 (Val.str "A") leafAA
  let leafAB := mkDecisionNode (Val.str "yes") (some nodeA1)
    (some (Val.str "B")) [] classes
  let childA := attachChild nodeA1 (Val.str "B") leafAB
  let root1 := attachChild root0 (Val.str "A") childA
  let nodeB0 := mkDecisionNode (Val.str "feature_1") (some root1)
    (some (Val.str "B")) [Val.str "no", Val.str "yes"] classes
  let leafBA := mkDecisionNode (Val.str "no") (some nodeB0)
    (some (Val.str "A")) [] classes
  let nodeB1 := attachChild nodeB0 (Val.str "A") leafBA
  let leafBB := mkDecisionNode (Val.str "no") (some nodeB1)
    (some (Val.str "B")) [] classes
  let childB := attachChild nodeB1 (Val.str "B") leafBB
  attachChild root1 (Val.str "B") childB

lemma c3_builder : treeBuilder ⟨none, 2⟩ c3st 4 c3X c3y [0, 1] none none 0 =
    .ok c3tree := by
  unfold treeBuilder
  rw [c3_gains]
  simp only []
  rw [show List.map Prod.fst [((0 : ℝ), (none : Option Val)), (0, none)] =
    [(0 : ℝ), 0] from rfl, c3_argmax]
  rfl

lemma c3_fit : fitClassifier ⟨none, 2⟩ 4 c3X c3y = .ok ⟨c3st, c3tree⟩ := by
  have step : fitClassifier ⟨none, 2⟩ 4 c3X c3y =
      (match treeBuilder ⟨none, 2⟩ c3st 4 c3X c3y [0, 1] none none 0 with
       | .error e => Except.error e
       | .ok t => .ok (⟨c3st, t⟩ : FittedClassifier)) := rfl
  rw [step, c3_builder]

/-- C3 (code evaluation): after the categorical root split on `feature_0`
consumed that column, the depth-1 node splits `feature_1` — but its branch
labels are `[A, B]`, the fit-time domain of `feature_0` (because the source
reads `unique_levels_[split_feature_idx]` with the LOCAL column position),
while `feature_1`'s globally observed domain is `[C, D]`. -/
theorem C3_categorical_branch_labels_use_wrong_domain :
    (fitClassifier ⟨none, 2⟩ 4 c3X c3y).map
        (fun f => (getItem f.tree (Val.str "A")).map
          (fun nd => (nd.feature, nd.children.map Prod.fst))) =
      .ok (.ok (Val.str "feature_1", [Val.str "A", Val.str "B"])) ∧
    uniqueSorted (colView c3X 1) = [Val.str "C", Val.str "D"] := by
  refine ⟨?_, rfl⟩
  rw [c3_fit]
  rfl

/-- Training matrix for the simple C6 scenario: one categorical feature with
fit-time domain `{A, B}`. -/
def c6X : Mat := [[Val.str "A"], [Val.str "A"], [Val.str "B"], [Val.str "B"]]

/-- Target vector for the simple C6 scenario. -/
def c6y : List Val :=
  [Val.str "yes", Val.str "yes", Val.str "no", Val.str "no"]

/-- The fit-time state computed on the C6 data. -/
def c6st : FitState :=
  ⟨[Val.str "feature_0"], [Val.str "no", Val.str "yes"],
   [[Val.str "A", Val.str "B"]]⟩

/-- The tree `fit` builds on the C6 data: a root split on `feature_0` with a
pure leaf under each level. -/
def c6Tree : DNode :=
  let classes := [Val.str "no", Val.str "yes"]
  let root0 := mkDecisionNode (Val.str "feature_0") none none c6y classes
  let leafA := mkDecisionNode (Val.str "yes") (some root0) (some (Val.str "A"))
    [Val.str "yes", Val.str "yes"] classes
  let root1 := attachChild root0 (Val.str "A") leafA
  let leafB := mkDecisionNode (Val.str "no") (some root1) (some (Val.str "B"))
    [Val.str "no", Val.str "no"] classes
  attachChild root1 (Val.str "B") leafB

lemma c6_fit : fitClassifier ⟨none, 2⟩ 3 c6X c6y = .ok ⟨c6st, c6Tree⟩ := rfl

/-- C6 (counterexample): (a) on the tree fitted over domain `{A, B}`,
predicting a row with the unseen value `C` raises `KeyError("C")` — the
error's `args` name only the offending value, not the feature; and (b) on
the tree of the C3 scenario, the value `A` — never observed at fit time for
`feature_1`, the feature split by the reached categorical node — does NOT
raise: prediction silently routes to a child and returns `"yes"`, because
the node's children were keyed by the wrong feature's domain. -/
theorem C6_counterexample_naming_and_silent_fallback :
    (match fitClassifier ⟨none, 2⟩ 3 c6X c6y with
     | .ok f => treeWalk f.state 3 [Val.str "C"] f.tree
     | .error e => .error e) = .error (.keyError (Val.str "C")) ∧
    errArgs (.keyError (Val.str "C")) = [Val.str "C"] ∧
    Val.str "feature_0" ∉ errArgs (.keyError (Val.str "C")) ∧
    Val.str "C" ∉ colView c6X 0 ∧
    (match fitClassifier ⟨none, 2⟩ 4 c3X c3y with
     | .ok f => predictRow f.state 4 [Val.str "A", Val.str "A"] f.tree
     | .error e => .error e) = .ok (Val.str "yes") ∧
    Val.str "A" ∉ colView c3X 1 := by
  refine ⟨rfl, rfl, by decide, by decide, ?_, by decide⟩
  rw [c3_fit]
  rfl

/-- C6 (amended): whenever tree walking reaches a categorical decision node
(no threshold, at least one child) whose children mapping lacks the query
value for the node's feature, prediction raises `KeyError` whose `args` name
exactly the offending value (the feature is not named), and never returns a
child. -/
theorem C6_amended_unseen_branch_keyerror (st : FitState) (fuel j : ℕ)
    (x : List Val) (nd : DNode) (v : Val)
    (hth : nd.threshold = none)
    (habs : lookupChild nd.children v = none)
    (hne : nd.children ≠ [])
    (hfeat : st.featureNames.findIdx? (fun w => decide (w = nd.feature)) = some j)
    (hx : x.get? j = some v) :
    treeWalk st (fuel + 1) x nd = .error (.keyError v) ∧
    errArgs (.keyError v) = [v] ∧
    ∀ c, getItem nd v ≠ .ok c := by
  have hgi : getItem nd v = .error (.keyError v) := by
    unfold getItem
    rw [hth]
    simp only []
    rw [habs]
  have hleaf : ¬nd.isLeaf = true := by
    unfold DNode.isLeaf
    cases hcs : nd.children with
    | nil => exact absurd hcs hne
    | cons a l => simp
  refine ⟨?_, rfl, fun c hc => by rw [hgi] at hc; cases hc⟩
  unfold treeWalk
  rw [if_neg hleaf, hfeat]
  simp only []
  rw [hx]
  simp only []
  rw [hgi]

/-- Witness for `C6_amended_unseen_branch_keyerror`: the fitted C6 root with
the unseen query value `C`. -/
theorem C6_amended_unseen_branch_keyerror_witness :
    treeWalk c6st (2 + 1) [Val.str "C"] c6Tree = .error (.keyError (Val.str "C")) ∧
    errArgs (.keyError (Val.str "C")) = [Val.str "C"] ∧
    ∀ c, getItem c6Tree (Val.str "C") ≠ .ok c :=
  C6_amended_unseen_branch_keyerror c6st 2 0 [Val.str "C"] c6Tree (Val.str "C")
    rfl rfl
    (by
      intro h
      have h2 := congrArg List.length h
      rw [show c6Tree.children.length = 2 from rfl] at h2
      simp at h2)
    rfl rfl

end Mpitree
